import Mathlib

/-!
# SmallSH (`src/main.c`): command model, parser and interpreter loop

A shallow embedding of the parser (`parseCommand`, `addArgument`,
`expansionVariablePIDReplace`) and of one iteration of the interpreter loop of
`main` (with `executeCommand`, `executeBackgroundCommand`, `changeDirectory`),
followed by theorems about them.

Conventions of the embedding:

* a C string is the list of its characters before the terminating NUL;
* a `char*` cell of the argument array is a `Slot`: not yet written after
  `malloc`, `NULL`, or a pointer to a string;
* using a `NULL` pointer as a string (`strlen(NULL)`, `p->field` on `NULL`)
  is undefined behaviour and is reported as `Fault.nullDeref`;
* the successive results of `strtok(…, " ")` on a buffer are the list
  `strtokAll buffer`; `strtok(NULL, " ")` returning `NULL` is the empty list;
* answers of the operating system (`getpid`, `fork`, `waitpid`, …) are inputs.
-/

set_option linter.dupNamespace false

namespace SmallSH

/-- Characters of a NUL-terminated C string, terminator excluded. -/
abbrev CStr := List Char

/-- Ways in which the embedded code can fail to produce a value: the C code
uses a `NULL` pointer, or a loop of the embedding exhausts its iteration
budget (which `parseCommand` never does, see `parseCommand_total`). -/
inductive Fault where
  | nullDeref
  | fuel
  deriving DecidableEq, Repr

/-- One `char*` cell of a `malloc`ed array. -/
inductive Slot where
  | uninit
  | null
  | str (s : CStr)
  deriving DecidableEq, Repr

/-- The C record `struct command`. -/
structure command where
  command : CStr
  argumentsArray : List Slot
  numArguments : Nat
  argumentCapacity : Nat
  inputFile : Option CStr
  outputFile : Option CStr
  isBackground : Int
  deriving DecidableEq, Repr

/-! ## `strtok` -/

/-- One call of `strtok` with delimiter `" "` on the text at the saved position:
`none` is `NULL`, otherwise the token and the new saved position. -/
def strtok (s : CStr) : Option (CStr × CStr) :=
  match s.dropWhile (fun c => c == ' ') with
  | [] => none
  | r => some (r.takeWhile (fun c => c != ' '), (r.dropWhile (fun c => c != ' ')).drop 1)

/-- Scanner behind `strtokAll`: `cur` is the token being read. -/
def strtokGo : CStr → CStr → List CStr
  | [], cur => if cur = [] then [] else [cur]
  | c :: cs, cur =>
    if c = ' ' then
      (if cur = [] then strtokGo cs [] else cur :: strtokGo cs [])
    else strtokGo cs (cur ++ [c])

/-- All tokens that the calls `strtok(buf, " ")`, `strtok(NULL, " ")`, …
return, in order. -/
def strtokAll (s : CStr) : List CStr := strtokGo s []

/-! ## `addArgument` -/

/-- The loop `for (i = 0; i < m; i++) dst[i] = src[i];`. -/
def copySlots (src : List Slot) (m : Nat) (dst : List Slot) : List Slot :=
  (List.range m).foldl (fun d i => d.set i (src[i]?.getD Slot.uninit)) dst

/-- The loop `for (i = lo; i < hi; i++) arr[i] = NULL;`. -/
def fillNull (lo hi : Nat) (arr : List Slot) : List Slot :=
  (List.range (hi - lo)).foldl (fun d k => d.set (lo + k) Slot.null) arr

/-- The C function `addArgument`. -/
def addArgument (commandStruct : command) (argument : CStr) : command :=
  let c1 := { commandStruct with numArguments := commandStruct.numArguments + 1 }
  let c2 :=
    if c1.numArguments ≥ c1.argumentCapacity then
      let cap := c1.argumentCapacity * 2
      let new_arguments_arr := List.replicate cap Slot.uninit
      let copied := copySlots c1.argumentsArray (c1.numArguments - 1) new_arguments_arr
      { c1 with
        argumentCapacity := cap
        argumentsArray := fillNull c1.numArguments cap copied }
    else c1
  { c2 with
    argumentsArray := c2.argumentsArray.set (c2.numArguments - 1) (Slot.str argument) }

/-! ## `expansionVariablePIDReplace` -/

/-- The text written by `sprintf(pid_str, "%d", pid)` for a process id: its
decimal digits. The buffer `pid_str` has room for nine digits, which covers
every process id the system hands out. -/
def pidString (pid : Nat) : CStr := Nat.toDigits 10 pid

/-- Offset returned by `strstr(s, "$$")`; `none` is `NULL`. -/
def strstrDollars : CStr → Option Nat
  | [] => none
  | [_] => none
  | c :: d :: rest =>
    if c = '$' ∧ d = '$' then some 0
    else (strstrDollars (d :: rest)).map (fun k => k + 1)

/-- The `for` loop of `expansionVariablePIDReplace`, one iteration per unit of
fuel; `i` is the loop index (`i--` followed by `i++` leaves it in place). -/
def expansionLoop (pid_str : CStr) (numArguments : Nat) :
    Nat → Nat → List Slot → Except Fault (List Slot)
  | 0, _, _ => .error Fault.fuel
  | fuel + 1, i, argumentsArray =>
    if i < numArguments then
      match argumentsArray[i]? with
      | some (Slot.str s) =>
        match strstrDollars s with
        | some pos =>
          expansionLoop pid_str numArguments fuel i
            (argumentsArray.set i (Slot.str (s.take pos ++ pid_str ++ s.drop (pos + 2))))
        | none => expansionLoop pid_str numArguments fuel (i + 1) argumentsArray
      | _ => .error Fault.nullDeref
    else .ok argumentsArray

/-- Number of `$` characters held by a slot. -/
def slotDollars : Slot → Nat
  | Slot.str s => s.count '$'
  | _ => 0

/-- Iterations that always suffice for the loop: one per argument plus one per
`$` character, plus the final test. -/
def expansionFuel (numArguments : Nat) (argumentsArray : List Slot) : Nat :=
  numArguments + ((argumentsArray.take numArguments).map slotDollars).sum + 1

/-- The C function `expansionVariablePIDReplace`, `pid` being what `getpid()`
returns. -/
def expansionVariablePIDReplace (pid : Nat) (numArguments : Nat)
    (argumentsArray : List Slot) : Except Fault (List Slot) :=
  expansionLoop (pidString pid) numArguments
    (expansionFuel numArguments argumentsArray) 0 argumentsArray

/-! ## `parseCommand` -/

/-- The record built by `parseCommand` from the first token, before the scan of
the remaining tokens. -/
def newCommand (token : CStr) : command :=
  { command := token
    argumentsArray := (List.replicate 2 Slot.null).set 0 (Slot.str token)
    numArguments := 1
    argumentCapacity := 2
    inputFile := none
    outputFile := none
    isBackground := 0 }

/-- The `while (token != NULL)` loop of `parseCommand` over the tokens that
follow the first one. -/
def parseLoop : List CStr → command → Except Fault command
  | [], c => .ok c
  | token :: rest, c =>
    if token = ['<'] then
      match rest with
      | [] => .error Fault.nullDeref
      | file :: rest2 => parseLoop rest2 { c with inputFile := some file }
    else if token = ['>'] then
      match rest with
      | [] => .error Fault.nullDeref
      | file :: rest2 => parseLoop rest2 { c with outputFile := some file }
    else if token = ['&'] then
      match rest with
      | [] => .ok { c with isBackground := 1 }
      | next :: rest2 =>
        parseLoop rest2
          (addArgument
            (addArgument { { c with isBackground := 1 } with isBackground := 0 } ['&']) next)
    else parseLoop rest (addArgument c token)

/-- The C function `parseCommand`: `.ok none` is the `NULL` result. -/
def parseCommand (pid : Nat) (commandBuffer : CStr) : Except Fault (Option command) :=
  if commandBuffer.length = 0 ∨ commandBuffer.head? = some '#' then .ok none
  else
    match strtokAll commandBuffer with
    | [] => .error Fault.nullDeref
    | token :: rest =>
      match parseLoop rest (newCommand token) with
      | .error e => .error e
      | .ok c =>
        match expansionVariablePIDReplace pid c.numArguments c.argumentsArray with
        | .error e => .error e
        | .ok arr => .ok (some { c with argumentsArray := arr })

/-- The arguments of a command as `execvp` sees them: the first `numArguments`
cells. -/
def argv (c : command) : List Slot := c.argumentsArray.take c.numArguments

/-! ## The interpreter loop of `main` and the execution engine -/

/-- The text that `printf("%d", n)` writes. -/
def intString : Int → CStr
  | Int.ofNat m => Nat.toDigits 10 m
  | Int.negSucc m => '-' :: Nat.toDigits 10 (m + 1)

/-- What `waitpid` stores about a terminated child: it exited with a code or
was killed by a signal. -/
inductive WaitStatus where
  | exited (code : Nat)
  | signaled (sig : Nat)
  deriving DecidableEq, Repr

/-- The standard test `WIFEXITED`. -/
def WIFEXITED : WaitStatus → Bool
  | WaitStatus.exited _ => true
  | WaitStatus.signaled _ => false

/-- The standard accessor `WEXITSTATUS`: the low eight bits of the exit code. -/
def WEXITSTATUS : WaitStatus → Int
  | WaitStatus.exited code => Int.ofNat (code % 256)
  | WaitStatus.signaled _ => 0

/-- The standard accessor `WTERMSIG`. -/
def WTERMSIG : WaitStatus → Int
  | WaitStatus.exited _ => 0
  | WaitStatus.signaled sig => Int.ofNat sig

/-- Answers of the operating system during one dispatch. -/
structure OS where
  fork_ret : Int
  wait_status : WaitStatus
  sigchld_sigaction_ret : Int
  child_sigint_sigaction_ret : Int
  home : Option CStr
  chdir_ret : Int
  deriving DecidableEq, Repr

/-- Observable actions of the interpreter process. -/
inductive Event where
  | printf (text : CStr)
  | fork
  | waitpid (pid : Int)
  | sigactionSIGCHLD
  | chdir (path : Option CStr)
  deriving DecidableEq, Repr

/-- How a call ends: it returns a value, the process calls `exit`, or the
process is the forked child on its way to `execvp` (or to `exit(1)` when a
redirection file or the program cannot be opened), which never returns. -/
inductive Flow (α : Type) where
  | ret (v : α)
  | exit (code : Int)
  | child
  deriving DecidableEq, Repr

/-- The text one reaped child makes `sigchildHandler` print. -/
def sigchildHandlerReport (child_pid : Int) (status : WaitStatus) : CStr :=
  if WIFEXITED status then
    "\n".toList ++ "background pid ".toList ++ intString child_pid
      ++ " is done: exit value ".toList ++ intString (WEXITSTATUS status) ++ "\n".toList
  else
    "\n".toList ++ "background pid ".toList ++ intString child_pid
      ++ " is done: terminated by signal ".toList ++ intString (WTERMSIG status)
      ++ "\n".toList

/-- The C function `executeBackgroundCommand`. -/
def executeBackgroundCommand (_commandStruct : command) (os : OS) :
    List Event × Flow Unit :=
  if os.sigchld_sigaction_ret = -1 then
    ([Event.sigactionSIGCHLD, Event.printf "sigaction".toList], Flow.ret ())
  else if os.fork_ret = -1 then
    ([Event.sigactionSIGCHLD, Event.fork, Event.printf "fork error\n".toList], Flow.exit 1)
  else if os.fork_ret = 0 then
    if os.child_sigint_sigaction_ret = -1 then
      ([Event.sigactionSIGCHLD, Event.fork, Event.printf "sigaction fail".toList],
        Flow.ret ())
    else ([Event.sigactionSIGCHLD, Event.fork], Flow.child)
  else
    ([Event.sigactionSIGCHLD, Event.fork,
      Event.printf ("Background PID is ".toList ++ intString os.fork_ret ++ "\n".toList)],
      Flow.ret ())

/-- The C function `executeCommand`. -/
def executeCommand (commandStruct : command) (os : OS) : List Event × Flow Int :=
  if commandStruct.isBackground = 0 then
    if os.fork_ret = -1 then
      ([Event.fork, Event.printf "fork() failed\n".toList], Flow.exit 1)
    else if os.fork_ret = 0 then ([Event.fork], Flow.child)
    else
      ([Event.fork, Event.waitpid os.fork_ret],
        if WIFEXITED os.wait_status then Flow.ret (WEXITSTATUS os.wait_status)
        else Flow.ret (-1))
  else
    match executeBackgroundCommand commandStruct os with
    | (tr, Flow.ret _) => (tr, Flow.ret 0)
    | (tr, Flow.exit code) => (tr, Flow.exit code)
    | (tr, Flow.child) => (tr, Flow.child)

/-- The pointer held by an array cell, as a path argument. -/
def slotPath : Slot → Option CStr
  | Slot.str s => some s
  | _ => none

/-- The C function `changeDirectory`. -/
def changeDirectory (commandStruct : command) (os : OS) : List Event :=
  let path :=
    if commandStruct.numArguments = 1 then os.home
    else slotPath (commandStruct.argumentsArray.getD 1 Slot.uninit)
  if os.chdir_ret = -1 then [Event.chdir path, Event.printf "chdir error".toList]
  else [Event.chdir path]

/-- The local variables of `main` that live across iterations. -/
structure LoopState where
  run_program : Int
  exit_status : Int
  deriving DecidableEq, Repr

/-- How one iteration of the loop ends. -/
inductive Control where
  | next (st : LoopState)
  | exit (code : Int)
  | child
  | fault (f : Fault)
  deriving DecidableEq, Repr

/-- One iteration of the loop: what it did and how it ended. -/
structure Step where
  trace : List Event
  control : Control
  deriving DecidableEq, Repr

/-- The block guarded by `if (commandStruct != NULL)` in `main`. -/
def dispatch (st : LoopState) (commandStruct : command) (os : OS) : Step :=
  if commandStruct.command = "exit".toList then
    { trace := [], control := Control.next { st with run_program := 0 } }
  else if commandStruct.command = "cd".toList then
    { trace := changeDirectory commandStruct os, control := Control.next st }
  else if commandStruct.command = "status".toList then
    if st.exit_status = 0 ∨ st.exit_status = 1 then
      { trace := [Event.printf ("exit value ".toList ++ intString st.exit_status
          ++ "\n".toList)],
        control := Control.next st }
    else
      { trace := [Event.printf ("terminated by signal ".toList
          ++ intString st.exit_status ++ "\n".toList)],
        control := Control.next st }
  else
    match executeCommand commandStruct os with
    | (tr, Flow.ret v) => { trace := tr, control := Control.next { st with exit_status := v } }
    | (tr, Flow.exit code) => { trace := tr, control := Control.exit code }
    | (tr, Flow.child) => { trace := tr, control := Control.child }

/-- The body of `while (run_program)` in `main` once `getCommand` has filled
`commandBuffer`; `foreground_only` is the value of the global flag when the
loop reads it and `pid` is what `getpid()` returns. -/
def mainLoopBody (foreground_only : Int) (pid : Nat) (os : OS) (st : LoopState)
    (commandBuffer : CStr) : Step :=
  match parseCommand pid commandBuffer with
  | .error f => { trace := [], control := Control.fault f }
  | .ok commandStruct =>
    if foreground_only = 1 then
      match commandStruct with
      | none => { trace := [], control := Control.fault Fault.nullDeref }
      | some c => dispatch st { c with isBackground := 0 } os
    else
      match commandStruct with
      | none => { trace := [], control := Control.next st }
      | some c => dispatch st c os

/-! ## Reference notions used to state the properties -/

/-- Every non-overlapping occurrence of `$$`, taken left to right, replaced by
`pid_str`. -/
def replaceAllDollars (pid_str : CStr) : CStr → CStr
  | [] => []
  | [c] => [c]
  | c :: d :: rest =>
    if c = '$' ∧ d = '$' then pid_str ++ replaceAllDollars pid_str rest
    else c :: replaceAllDollars pid_str (d :: rest)

/-- The line obtained by writing tokens one after the other with one space in
between. -/
def joinTokens : List CStr → CStr
  | [] => []
  | [t] => t
  | t :: u :: rest => t ++ ' ' :: joinTokens (u :: rest)

/-- A token: a non-empty text without a space. -/
def IsToken (t : CStr) : Prop := t ≠ [] ∧ ' ' ∉ t

/-- One of the three tokens the parser treats specially. -/
def IsOperator (t : CStr) : Prop := t = ['<'] ∨ t = ['>'] ∨ t = ['&']

instance (t : CStr) : Decidable (IsToken t) := by unfold IsToken; infer_instance
instance (t : CStr) : Decidable (IsOperator t) := by unfold IsOperator; infer_instance

/-- What the scan of the tokens after the first one reads in one step: a plain
word, or one of `<`, `>`, `&` together with the token that follows it. -/
inductive Item where
  | word (w : CStr)
  | input (file : CStr)
  | output (file : CStr)
  | amp (next : CStr)
  deriving DecidableEq, Repr

/-- The tokens an item is written with. -/
def Item.tokens : Item → List CStr
  | Item.word w => [w]
  | Item.input file => [['<'], file]
  | Item.output file => [['>'], file]
  | Item.amp next => [['&'], next]

/-- The arguments an item contributes. -/
def Item.args : Item → List CStr
  | Item.word w => [w]
  | Item.input _ => []
  | Item.output _ => []
  | Item.amp next => [['&'], next]

/-- A plain word is not one of the three special tokens. -/
def Item.WellFormed : Item → Prop
  | Item.word w => ¬ IsOperator w
  | _ => True

/-- The input redirection left by a sequence of items: the file of the last
`<` item, if any. -/
def redirectInput (items : List Item) (init : Option CStr) : Option CStr :=
  items.foldl (fun acc it => match it with | Item.input file => some file | _ => acc) init

/-- The output redirection left by a sequence of items: the file of the last
`>` item, if any. -/
def redirectOutput (items : List Item) (init : Option CStr) : Option CStr :=
  items.foldl (fun acc it => match it with | Item.output file => some file | _ => acc) init

/-- The text contains the marker `$$`. -/
def ContainsDollars (s : CStr) : Prop := ∃ a b : CStr, s = a ++ '$' :: '$' :: b

/-! ## The argument array -/

/-- Shape of a well-formed argument array holding the strings `xs`: they fill
the first cells in order, every other cell is `NULL`, at least one cell is
left, and the capacity is a power of two. -/
def ArgInv (c : command) (xs : List CStr) : Prop :=
  c.numArguments = xs.length ∧ c.numArguments < c.argumentCapacity ∧
  (∃ k, c.argumentCapacity = 2 ^ k) ∧
  c.argumentsArray =
    xs.map Slot.str ++ List.replicate (c.argumentCapacity - c.numArguments) Slot.null

theorem copySlots_length (src : List Slot) (m : Nat) (dst : List Slot) :
    (copySlots src m dst).length = dst.length := by
  unfold copySlots
  induction m with
  | zero => simp
  | succ m ih => simp [List.range_succ, List.foldl_append, ih]

theorem fillNull_length (lo hi : Nat) (arr : List Slot) :
    (fillNull lo hi arr).length = arr.length := by
  unfold fillNull
  induction (hi - lo) with
  | zero => simp
  | succ m ih => simp [List.range_succ, List.foldl_append, ih]

theorem copySlots_getElem? (src : List Slot) (m : Nat) (dst : List Slot) (j : Nat) :
    (copySlots src m dst)[j]? =
      if j < m ∧ j < dst.length then some (src[j]?.getD Slot.uninit) else dst[j]? := by
  induction m with
  | zero => simp [copySlots]
  | succ m ih =>
    have hlen := copySlots_length src m dst
    unfold copySlots at ih hlen ⊢
    rw [List.range_succ, List.foldl_append]
    simp only [List.foldl_cons, List.foldl_nil]
    rw [List.getElem?_set]
    by_cases hj : m = j
    · subst hj
      simp only [hlen, if_true]
      by_cases h : m < dst.length
      · simp [h]
      · simp [h, List.getElem?_eq_none (Nat.le_of_not_lt h)]
    · simp only [hj, if_false, ih]
      have : (j < m + 1) ↔ (j < m) := by omega
      simp [this]

theorem fillNull_getElem? (lo hi : Nat) (arr : List Slot) (j : Nat) :
    (fillNull lo hi arr)[j]? =
      if lo ≤ j ∧ j < hi ∧ j < arr.length then some Slot.null else arr[j]? := by
  unfold fillNull
  have key : ∀ n, ((List.range n).foldl (fun d k => d.set (lo + k) Slot.null) arr)[j]? =
      if lo ≤ j ∧ j < lo + n ∧ j < arr.length then some Slot.null else arr[j]? := by
    intro n
    induction n with
    | zero =>
      have : ¬ (lo ≤ j ∧ j < lo ∧ j < arr.length) := by omega
      simp [this]
    | succ n ih =>
      have hlen : ((List.range n).foldl (fun d k => d.set (lo + k) Slot.null) arr).length
          = arr.length := by
        have := fillNull_length lo (lo + n) arr
        simpa [fillNull] using this
      rw [List.range_succ, List.foldl_append]
      simp only [List.foldl_cons, List.foldl_nil]
      rw [List.getElem?_set]
      by_cases hj : lo + n = j
      · subst hj
        simp only [hlen, if_true]
        by_cases h : lo + n < arr.length
        · simp [h]
        · simp [h, List.getElem?_eq_none (Nat.le_of_not_lt h)]
      · simp only [hj, if_false, ih]
        have : (j < lo + (n + 1)) ↔ (j < lo + n) := by omega
        simp [this]
  rw [key]
  by_cases h : lo ≤ j
  · have : (j < lo + (hi - lo)) ↔ (j < hi) := by omega
    simp [this]
  · simp [h]

theorem newCommand_inv (token : CStr) : ArgInv (newCommand token) [token] := by
  refine ⟨rfl, ?_, ⟨1, rfl⟩, ?_⟩
  · show 1 < 2
    omega
  · simp [newCommand, List.replicate]

theorem addArgument_grow (c : command) (a : CStr)
    (h : c.argumentCapacity ≤ c.numArguments + 1) :
    addArgument c a =
      { c with
        numArguments := c.numArguments + 1
        argumentCapacity := c.argumentCapacity * 2
        argumentsArray :=
          (fillNull (c.numArguments + 1) (c.argumentCapacity * 2)
            (copySlots c.argumentsArray c.numArguments
              (List.replicate (c.argumentCapacity * 2) Slot.uninit))).set
            c.numArguments (Slot.str a) } := by
  simp [addArgument, h]

theorem addArgument_fit (c : command) (a : CStr)
    (h : ¬ c.argumentCapacity ≤ c.numArguments + 1) :
    addArgument c a =
      { c with
        numArguments := c.numArguments + 1
        argumentsArray := c.argumentsArray.set c.numArguments (Slot.str a) } := by
  simp [addArgument, h]

theorem filled_getElem? (xs : List CStr) (m j : Nat) :
    (xs.map Slot.str ++ List.replicate m Slot.null)[j]? =
      if j < xs.length then (xs[j]?).map Slot.str
      else if j < xs.length + m then some Slot.null else none := by
  by_cases h : j < xs.length
  · rw [List.getElem?_append_left (by simpa using h)]
    simp [h]
  · rw [List.getElem?_append_right (by simpa using h), List.getElem?_replicate]
    simp only [h, if_false, List.length_map]
    by_cases h2 : j < xs.length + m
    · have : j - xs.length < m := by omega
      simp [h2, this]
    · have : ¬ j - xs.length < m := by omega
      simp [h2, this]

theorem grown_array (xs : List CStr) (a : CStr) :
    (fillNull (xs.length + 1) ((xs.length + 1) * 2)
        (copySlots (xs.map Slot.str ++ List.replicate 1 Slot.null) xs.length
          (List.replicate ((xs.length + 1) * 2) Slot.uninit))).set xs.length (Slot.str a)
      = (xs ++ [a]).map Slot.str
          ++ List.replicate ((xs.length + 1) * 2 - (xs.length + 1)) Slot.null := by
  apply List.ext_getElem?
  intro j
  rw [List.getElem?_set, filled_getElem?]
  simp only [fillNull_length, copySlots_length, List.length_replicate,
    fillNull_getElem?, copySlots_getElem?, filled_getElem?, List.length_append,
    List.length_singleton]
  by_cases hj : xs.length = j
  · subst hj
    have h1 : xs.length < (xs.length + 1) * 2 := by omega
    simp [h1]
  · simp only [hj, if_false]
    by_cases hj2 : j < xs.length
    · have h1 : ¬ (xs.length + 1 ≤ j ∧ j < (xs.length + 1) * 2 ∧ j < (xs.length + 1) * 2) := by
        omega
      have h2 : j < xs.length ∧ j < (xs.length + 1) * 2 := by omega
      have h3 : j < xs.length + 1 := by omega
      simp only [h1, h2, hj2, if_false, if_true, and_self]
      simp [List.getElem?_append_left hj2, List.getElem?_eq_getElem hj2, h3]
    · have h0 : ¬ j < xs.length + 1 := by omega
      have h2 : ¬ (j < xs.length ∧ j < (xs.length + 1) * 2) := by omega
      simp only [h0, h2, if_false]
      by_cases hj4 : j < (xs.length + 1) * 2
      · have h1 : (xs.length + 1 ≤ j ∧ j < (xs.length + 1) * 2 ∧ j < (xs.length + 1) * 2) := by
          omega
        have h3 : j < xs.length + 1 + ((xs.length + 1) * 2 - (xs.length + 1)) := by omega
        simp only [h1, h3, if_true, and_self]
      · have h1 : ¬ (xs.length + 1 ≤ j ∧ j < (xs.length + 1) * 2 ∧ j < (xs.length + 1) * 2) := by
          omega
        have h3 : ¬ j < xs.length + 1 + ((xs.length + 1) * 2 - (xs.length + 1)) := by omega
        simp only [h1, h3, if_false]
        rw [List.getElem?_replicate]
        simp [hj4]

theorem addArgument_inv (c : command) (xs : List CStr) (a : CStr) (h : ArgInv c xs) :
    ArgInv (addArgument c a) (xs ++ [a]) := by
  obtain ⟨hn, hlt, ⟨k, hk⟩, harr⟩ := h
  by_cases hcap : c.argumentCapacity ≤ c.numArguments + 1
  · have hcapEq : c.argumentCapacity = xs.length + 1 := by omega
    rw [addArgument_grow c a hcap]
    refine ⟨?_, ?_, ⟨k + 1, ?_⟩, ?_⟩
    · show c.numArguments + 1 = (xs ++ [a]).length
      simp [hn]
    · show c.numArguments + 1 < c.argumentCapacity * 2
      omega
    · show c.argumentCapacity * 2 = 2 ^ (k + 1)
      rw [hk, pow_succ]
    · show (fillNull (c.numArguments + 1) (c.argumentCapacity * 2)
            (copySlots c.argumentsArray c.numArguments
              (List.replicate (c.argumentCapacity * 2) Slot.uninit))).set
            c.numArguments (Slot.str a)
          = (xs ++ [a]).map Slot.str
            ++ List.replicate (c.argumentCapacity * 2 - (c.numArguments + 1)) Slot.null
      rw [harr, hn, hcapEq]
      have : xs.length + 1 - xs.length = 1 := by omega
      rw [this]
      exact grown_array xs a
  · rw [addArgument_fit c a hcap]
    refine ⟨?_, ?_, ⟨k, hk⟩, ?_⟩
    · show c.numArguments + 1 = (xs ++ [a]).length
      simp [hn]
    · show c.numArguments + 1 < c.argumentCapacity
      omega
    · show c.argumentsArray.set c.numArguments (Slot.str a)
          = (xs ++ [a]).map Slot.str
            ++ List.replicate (c.argumentCapacity - (c.numArguments + 1)) Slot.null
      have hpos : c.argumentCapacity - c.numArguments =
          (c.argumentCapacity - (c.numArguments + 1)) + 1 := by omega
      rw [harr, hpos, List.replicate_succ]
      have hl : (List.map Slot.str xs).length ≤ c.numArguments := by simp [hn]
      rw [List.set_append_right _ _ hl]
      simp [hn]

/-! ## `$$` expansion -/

theorem digitChar_ne_dollar : ∀ n, n < 10 → Nat.digitChar n ≠ '$' := by
  decide

theorem toDigitsCore_no_dollar (fuel : Nat) :
    ∀ (n : Nat) (acc : List Char), (∀ c ∈ acc, c ≠ '$') →
      ∀ c ∈ Nat.toDigitsCore 10 fuel n acc, c ≠ '$' := by
  induction fuel with
  | zero => intro n acc h; simpa [Nat.toDigitsCore] using h
  | succ fuel ih =>
    intro n acc h
    have hacc : ∀ c ∈ Nat.digitChar (n % 10) :: acc, c ≠ '$' := by
      intro c hc
      rcases List.mem_cons.mp hc with rfl | hc
      · exact digitChar_ne_dollar _ (Nat.mod_lt _ (by decide))
      · exact h c hc
    unfold Nat.toDigitsCore
    by_cases h0 : n / 10 = 0
    · simpa [h0] using hacc
    · simp only [h0, if_false]
      exact ih _ _ hacc

theorem toDigitsCore_ne_nil (fuel : Nat) :
    ∀ (n : Nat) (acc : List Char), Nat.toDigitsCore 10 (fuel + 1) n acc ≠ [] := by
  induction fuel with
  | zero =>
    intro n acc
    unfold Nat.toDigitsCore
    by_cases h0 : n / 10 = 0 <;> simp [h0, Nat.toDigitsCore]
  | succ fuel ih =>
    intro n acc
    unfold Nat.toDigitsCore
    by_cases h0 : n / 10 = 0
    · simp [h0]
    · simp only [h0, if_false]
      exact ih _ _

theorem pidString_no_dollar (pid : Nat) : ∀ c ∈ pidString pid, c ≠ '$' :=
  toDigitsCore_no_dollar _ _ _ (by simp)

theorem pidString_ne_nil (pid : Nat) : pidString pid ≠ [] :=
  toDigitsCore_ne_nil _ _ _

theorem strstrDollars_cons_cons (c d : Char) (rest : CStr) :
    strstrDollars (c :: d :: rest) =
      if c = '$' ∧ d = '$' then some 0
      else (strstrDollars (d :: rest)).map (fun k => k + 1) := by
  simp [strstrDollars]

theorem replaceAllDollars_cons_cons (p : CStr) (c d : Char) (rest : CStr) :
    replaceAllDollars p (c :: d :: rest) =
      if c = '$' ∧ d = '$' then p ++ replaceAllDollars p rest
      else c :: replaceAllDollars p (d :: rest) := by
  simp [replaceAllDollars]

theorem replaceAllDollars_cons_ne (p : CStr) (c : Char) (y : CStr) (hc : c ≠ '$') :
    replaceAllDollars p (c :: y) = c :: replaceAllDollars p y := by
  cases y with
  | nil => simp [replaceAllDollars]
  | cons d rest => simp [replaceAllDollars_cons_cons, hc]

theorem replaceAllDollars_cons_head (p : CStr) (c : Char) (y : CStr)
    (hy : y.head? ≠ some '$') :
    replaceAllDollars p (c :: y) = c :: replaceAllDollars p y := by
  cases y with
  | nil => simp [replaceAllDollars]
  | cons d rest =>
    have hd : d ≠ '$' := by simpa using hy
    simp [replaceAllDollars_cons_cons, hd]

theorem replaceAllDollars_append (p x y : CStr) (hx : ∀ c ∈ x, c ≠ '$') :
    replaceAllDollars p (x ++ y) = x ++ replaceAllDollars p y := by
  induction x with
  | nil => simp
  | cons c x ih =>
    have hc : c ≠ '$' := hx c (by simp)
    have hx2 : ∀ c ∈ x, c ≠ '$' := fun c h => hx c (by simp [h])
    simp [replaceAllDollars_cons_ne _ _ _ hc, ih hx2]

theorem replaceAllDollars_of_none (p : CStr) :
    ∀ s : CStr, strstrDollars s = none → replaceAllDollars p s = s := by
  intro s
  induction s with
  | nil => intro _; simp [replaceAllDollars]
  | cons c t ih =>
    cases t with
    | nil => intro _; simp [replaceAllDollars]
    | cons d rest =>
      intro h
      rw [strstrDollars_cons_cons] at h
      by_cases hm : c = '$' ∧ d = '$'
      · simp [hm] at h
      · simp only [hm, if_false, Option.map_eq_none'] at h
        rw [replaceAllDollars_cons_cons]
        simp only [hm, if_false]
        rw [ih h]

theorem strstrDollars_zero (s : CStr) (h : strstrDollars s = some 0) :
    ∃ rest, s = '$' :: '$' :: rest := by
  cases s with
  | nil => simp [strstrDollars] at h
  | cons c t =>
    cases t with
    | nil => simp [strstrDollars] at h
    | cons d rest =>
      rw [strstrDollars_cons_cons] at h
      by_cases hm : c = '$' ∧ d = '$'
      · exact ⟨rest, by rw [hm.1, hm.2]⟩
      · simp [hm] at h

/-- Replacing the first marker, as one iteration of the C loop does, does not
change the result of replacing all markers. -/
theorem replaceAllDollars_step (p : CStr) (hp : ∀ c ∈ p, c ≠ '$') :
    ∀ (s : CStr) (k : Nat), strstrDollars s = some k →
      replaceAllDollars p (s.take k ++ p ++ s.drop (k + 2)) = replaceAllDollars p s := by
  intro s
  induction s with
  | nil => intro k h; simp [strstrDollars] at h
  | cons c t ih =>
    cases t with
    | nil => intro k h; simp [strstrDollars] at h
    | cons d rest =>
      intro k h
      rw [strstrDollars_cons_cons] at h
      by_cases hm : c = '$' ∧ d = '$'
      · simp only [hm, and_self, if_true, Option.some.injEq] at h
        subst h
        rw [replaceAllDollars_cons_cons]
        simp only [hm, and_self, if_true]
        simp only [List.take_zero, List.nil_append, Nat.zero_add, List.drop_succ_cons,
          List.drop_zero]
        exact replaceAllDollars_append p p rest hp
      · simp only [hm, if_false] at h
        cases hk : strstrDollars (d :: rest) with
        | none => simp [hk] at h
        | some k2 =>
          simp only [hk, Option.map_some', Option.some.injEq] at h
          subst h
          have ih2 := ih k2 hk
          rw [replaceAllDollars_cons_cons]
          simp only [hm, if_false]
          have e1 : List.drop (k2 + 1 + 2) (c :: d :: rest) = List.drop (k2 + 2) (d :: rest) := by
            rw [show k2 + 1 + 2 = (k2 + 2) + 1 by omega, List.drop_succ_cons]
          have hstep : replaceAllDollars p
              (c :: (List.take k2 (d :: rest) ++ p ++ List.drop (k2 + 2) (d :: rest)))
              = c :: replaceAllDollars p
                (List.take k2 (d :: rest) ++ p ++ List.drop (k2 + 2) (d :: rest)) := by
            by_cases hc : c = '$'
            · apply replaceAllDollars_cons_head
              have hd : d ≠ '$' := fun hd => hm ⟨hc, hd⟩
              cases k2 with
              | zero =>
                obtain ⟨r, hr⟩ := strstrDollars_zero _ hk
                simp at hr
                exact absurd hr.1 hd
              | succ k3 => simpa using hd
            · exact replaceAllDollars_cons_ne _ _ _ hc
          rw [List.take_succ_cons, e1, List.cons_append, List.cons_append, hstep, ih2]

theorem strstrDollars_some (s : CStr) :
    ∀ k, strstrDollars s = some k → s = s.take k ++ '$' :: '$' :: s.drop (k + 2) := by
  induction s with
  | nil => intro k h; simp [strstrDollars] at h
  | cons c t ih =>
    cases t with
    | nil => intro k h; simp [strstrDollars] at h
    | cons d rest =>
      intro k h
      rw [strstrDollars_cons_cons] at h
      by_cases hm : c = '$' ∧ d = '$'
      · simp only [hm, and_self, if_true, Option.some.injEq] at h
        subst h
        simp [hm.1, hm.2]
      · simp only [hm, if_false] at h
        cases hk : strstrDollars (d :: rest) with
        | none => simp [hk] at h
        | some k2 =>
          simp only [hk, Option.map_some', Option.some.injEq] at h
          subst h
          have ih2 := ih k2 hk
          have e1 : List.drop (k2 + 1 + 2) (c :: d :: rest) = List.drop (k2 + 2) (d :: rest) := by
            rw [show k2 + 1 + 2 = (k2 + 2) + 1 by omega, List.drop_succ_cons]
          rw [List.take_succ_cons, e1, List.cons_append, ← ih2]

theorem strstrDollars_none_iff (s : CStr) : strstrDollars s = none ↔ ¬ ContainsDollars s := by
  constructor
  · intro h ⟨a, b, hab⟩
    subst hab
    induction a with
    | nil => simp [strstrDollars] at h
    | cons c a ih =>
      cases a with
      | nil =>
        simp only [List.cons_append, List.nil_append] at h ih
        rw [strstrDollars_cons_cons] at h
        by_cases hc : c = '$'
        · simp [hc] at h
        · simp only [hc, false_and, if_false, Option.map_eq_none'] at h
          exact ih h
      | cons d a2 =>
        simp only [List.cons_append] at h ih
        rw [strstrDollars_cons_cons] at h
        by_cases hm : c = '$' ∧ d = '$'
        · simp [hm] at h
        · simp only [hm, if_false, Option.map_eq_none'] at h
          exact ih h
  · intro h
    cases hk : strstrDollars s with
    | none => rfl
    | some k => exact absurd ⟨_, _, strstrDollars_some s k hk⟩ h

theorem count_dollars_step (p : CStr) (hp : ∀ c ∈ p, c ≠ '$') (s : CStr) (k : Nat)
    (h : strstrDollars s = some k) :
    (s.take k ++ p ++ s.drop (k + 2)).count '$' + 2 = s.count '$' := by
  have hp0 : p.count '$' = 0 := by
    rw [List.count_eq_zero]
    intro hmem
    exact hp _ hmem rfl
  have hs := strstrDollars_some s k h
  conv_rhs => rw [hs]
  simp only [List.count_append, List.count_cons_self, hp0]
  omega

theorem expansionLoop_done (p : CStr) (n fuel i : Nat) (a : List Slot) (h : ¬ i < n) :
    expansionLoop p n (fuel + 1) i a = .ok a := by
  simp [expansionLoop, h]

theorem expansionLoop_none (p : CStr) (n fuel i : Nat) (a : List Slot) (s : CStr)
    (h : i < n) (ha : a[i]? = some (Slot.str s)) (hs : strstrDollars s = none) :
    expansionLoop p n (fuel + 1) i a = expansionLoop p n fuel (i + 1) a := by
  simp [expansionLoop, h, ha, hs]

theorem expansionLoop_some (p : CStr) (n fuel i : Nat) (a : List Slot) (s : CStr) (k : Nat)
    (h : i < n) (ha : a[i]? = some (Slot.str s)) (hs : strstrDollars s = some k) :
    expansionLoop p n (fuel + 1) i a =
      expansionLoop p n fuel i (a.set i (Slot.str (s.take k ++ p ++ s.drop (k + 2)))) := by
  simp [expansionLoop, h, ha, hs]

/-- More fuel never changes a result already reached. -/
theorem expansionLoop_mono (p : CStr) (n : Nat) (r : List Slot) :
    ∀ (fuel i : Nat) (a : List Slot),
      expansionLoop p n fuel i a = .ok r → expansionLoop p n (fuel + 1) i a = .ok r := by
  intro fuel
  induction fuel with
  | zero => intro i a h; simp [expansionLoop] at h
  | succ fuel ih =>
    intro i a h
    by_cases hi : i < n
    · cases ha : a[i]? with
      | none => simp [expansionLoop, hi, ha] at h
      | some slot =>
        cases slot with
        | uninit => simp [expansionLoop, hi, ha] at h
        | null => simp [expansionLoop, hi, ha] at h
        | str s =>
          cases hs : strstrDollars s with
          | none =>
            rw [expansionLoop_none p n _ i a s hi ha hs] at h ⊢
            exact ih _ _ h
          | some k =>
            rw [expansionLoop_some p n _ i a s k hi ha hs] at h ⊢
            exact ih _ _ h
    · rw [expansionLoop_done p n _ i a hi] at h ⊢
      exact h

theorem expansionLoop_mono_le (p : CStr) (n : Nat) (r : List Slot) (i : Nat) (a : List Slot)
    (f g : Nat) (hfg : f ≤ g) (h : expansionLoop p n f i a = .ok r) :
    expansionLoop p n g i a = .ok r := by
  induction g with
  | zero =>
    have : f = 0 := by omega
    subst this
    exact h
  | succ g ih =>
    by_cases hfg2 : f ≤ g
    · exact expansionLoop_mono p n r g i a (ih hfg2)
    · have : f = g + 1 := by omega
      subst this
      exact h

/-- The iterations spent on one argument: they end at the next index with the
argument holding the text in which every marker is replaced. -/
theorem expansionLoop_argument (p : CStr) (hp : ∀ c ∈ p, c ≠ '$') (n i : Nat) (hi : i < n)
    (r : List Slot) :
    ∀ (m : Nat) (s : CStr) (a : List Slot) (f : Nat), s.count '$' ≤ m →
      a[i]? = some (Slot.str s) →
      expansionLoop p n f (i + 1) (a.set i (Slot.str (replaceAllDollars p s))) = .ok r →
      expansionLoop p n (f + m + 1) i a = .ok r := by
  intro m
  induction m with
  | zero =>
    intro s a f hm ha hr
    have hs : strstrDollars s = none := by
      cases hk : strstrDollars s with
      | none => rfl
      | some k =>
        have := count_dollars_step p hp s k hk
        omega
    rw [expansionLoop_none p n _ i a s hi ha hs]
    rw [replaceAllDollars_of_none p s hs] at hr
    have hset : a.set i (Slot.str s) = a := by
      apply List.ext_getElem?
      intro j
      rw [List.getElem?_set]
      by_cases hj : i = j
      · subst hj
        have hlt : i < a.length := by
          by_contra hcon
          rw [List.getElem?_eq_none (Nat.le_of_not_lt hcon)] at ha
          exact Option.noConfusion ha
        simp [hlt, ha]
      · simp [hj]
    rw [hset] at hr
    exact hr
  | succ m ih =>
    intro s a f hm ha hr
    have hlt : i < a.length := by
      by_contra hcon
      rw [List.getElem?_eq_none (Nat.le_of_not_lt hcon)] at ha
      exact Option.noConfusion ha
    cases hs : strstrDollars s with
    | none =>
      rw [expansionLoop_none p n _ i a s hi ha hs]
      rw [replaceAllDollars_of_none p s hs] at hr
      have hset : a.set i (Slot.str s) = a := by
        apply List.ext_getElem?
        intro j
        rw [List.getElem?_set]
        by_cases hj : i = j
        · subst hj
          simp [hlt, ha]
        · simp [hj]
      rw [hset] at hr
      exact expansionLoop_mono_le p n r (i + 1) a f (f + (m + 1)) (by omega) hr
    | some k =>
      rw [show f + (m + 1) + 1 = (f + m + 1) + 1 by omega,
        expansionLoop_some p n _ i a s k hi ha hs]
      have hcount := count_dollars_step p hp s k hs
      apply ih (s.take k ++ p ++ s.drop (k + 2)) _ f (by omega)
      · rw [List.getElem?_set]
        simp [hlt]
      · rw [List.set_set, replaceAllDollars_step p hp s k hs]
        exact hr

theorem replaceAllDollars_clean (p : CStr) (hp : ∀ c ∈ p, c ≠ '$') :
    ∀ (m : Nat) (s : CStr), s.count '$' ≤ m →
      strstrDollars (replaceAllDollars p s) = none := by
  intro m
  induction m with
  | zero =>
    intro s hm
    cases hk : strstrDollars s with
    | none => rw [replaceAllDollars_of_none p s hk]; exact hk
    | some k =>
      have := count_dollars_step p hp s k hk
      omega
  | succ m ih =>
    intro s hm
    cases hk : strstrDollars s with
    | none => rw [replaceAllDollars_of_none p s hk]; exact hk
    | some k =>
      have hcount := count_dollars_step p hp s k hk
      rw [← replaceAllDollars_step p hp s k hk]
      exact ih _ (by omega)

/-- The whole loop, started at the index where the arguments `xs` begin. -/
theorem expansionLoop_all (p : CStr) (hp : ∀ c ∈ p, c ≠ '$') :
    ∀ (xs : List CStr) (pre rest : List Slot) (f : Nat),
      xs.length + (xs.map (fun s => s.count '$')).sum + 1 ≤ f →
      expansionLoop p (pre.length + xs.length) f pre.length
          (pre ++ xs.map Slot.str ++ rest)
        = .ok (pre ++ xs.map (fun s => Slot.str (replaceAllDollars p s)) ++ rest) := by
  intro xs
  induction xs with
  | nil =>
    intro pre rest f hf
    obtain ⟨g, rfl⟩ : ∃ g, f = g + 1 := ⟨f - 1, by omega⟩
    rw [expansionLoop_done]
    · simp
    · simp
  | cons x xs ih =>
    intro pre rest f hf
    simp only [List.map_cons, List.sum_cons, List.length_cons] at hf
    obtain ⟨g, rfl⟩ : ∃ g, f = g + x.count '$' + 1 := ⟨f - x.count '$' - 1, by omega⟩
    have hi : pre.length < pre.length + (x :: xs).length := by simp
    apply expansionLoop_argument p hp _ _ hi _ (x.count '$') x _ g (le_refl _)
    · rw [List.append_assoc, List.getElem?_append_right (le_refl _)]
      simp
    · have h1 := ih (pre ++ [Slot.str (replaceAllDollars p x)]) rest g (by omega)
      have e1 : (pre ++ List.map Slot.str (x :: xs) ++ rest).set pre.length
            (Slot.str (replaceAllDollars p x))
          = pre ++ [Slot.str (replaceAllDollars p x)] ++ List.map Slot.str xs ++ rest := by
        simp [List.set_append_right]
      have e2 : (pre ++ [Slot.str (replaceAllDollars p x)]).length = pre.length + 1 := by simp
      have e3 : pre.length + (x :: xs).length = pre.length + 1 + xs.length := by
        simp; omega
      rw [e1, e3]
      rw [e2] at h1
      rw [h1]
      simp

theorem expansionFuel_args (xs : List CStr) (rest : List Slot) :
    expansionFuel xs.length (xs.map Slot.str ++ rest)
      = xs.length + (xs.map (fun s => s.count '$')).sum + 1 := by
  unfold expansionFuel
  have : List.take xs.length (List.map Slot.str xs ++ rest) = List.map Slot.str xs := by
    rw [List.take_append_of_le_length (by simp)]
    simp [List.take_of_length_le]
  rw [this]
  simp [List.map_map, Function.comp_def, slotDollars]

/-- The function on an array whose first `numArguments` cells hold `xs`. -/
theorem expansionVariablePIDReplace_args (pid : Nat) (xs : List CStr) (rest : List Slot) :
    expansionVariablePIDReplace pid xs.length (xs.map Slot.str ++ rest)
      = .ok (xs.map (fun s => Slot.str (replaceAllDollars (pidString pid) s)) ++ rest) := by
  unfold expansionVariablePIDReplace
  have h := expansionLoop_all (pidString pid) (pidString_no_dollar pid) xs [] rest
    (expansionFuel xs.length (xs.map Slot.str ++ rest)) (by rw [expansionFuel_args])
  simpa using h

/-- Claim C3: for every argument list and every process id the expansion loop
stops (with the iteration budget the function uses, and with any larger one)
and leaves each argument equal to the original with every non-overlapping
occurrence of `$$`, taken left to right, replaced by the decimal text of the
process id; the cells after the arguments are untouched, an argument without
`$$` is unchanged, and no argument contains `$$` afterwards. -/
theorem expansion_replaces_every_marker (pid : Nat) (args : List CStr) (rest : List Slot) :
    expansionVariablePIDReplace pid args.length (args.map Slot.str ++ rest)
      = .ok (args.map (fun s => Slot.str (replaceAllDollars (pidString pid) s)) ++ rest) ∧
    (∀ fuel, expansionFuel args.length (args.map Slot.str ++ rest) ≤ fuel →
      expansionLoop (pidString pid) args.length fuel 0 (args.map Slot.str ++ rest)
        = .ok (args.map (fun s => Slot.str (replaceAllDollars (pidString pid) s)) ++ rest)) ∧
    (∀ a ∈ args, ¬ ContainsDollars a → replaceAllDollars (pidString pid) a = a) ∧
    (∀ a ∈ args, ¬ ContainsDollars (replaceAllDollars (pidString pid) a)) := by
  refine ⟨expansionVariablePIDReplace_args pid args rest, ?_, ?_, ?_⟩
  · intro fuel hfuel
    rw [expansionFuel_args] at hfuel
    have h := expansionLoop_all (pidString pid) (pidString_no_dollar pid) args [] rest fuel hfuel
    simpa using h
  · intro a _ ha
    exact replaceAllDollars_of_none _ a ((strstrDollars_none_iff a).mpr ha)
  · intro a _
    rw [← strstrDollars_none_iff]
    exact replaceAllDollars_clean _ (pidString_no_dollar pid) _ a (le_refl _)

/-- Claim C3, witness: with process id 1234 the arguments of `echo a$$b$$`
become `echo` and `a1234b1234`. -/
theorem expansion_replaces_every_marker_witness :
    expansionVariablePIDReplace 1234 2
        (["echo".toList, "a$$b$$".toList].map Slot.str)
      = Except.ok (["echo".toList, "a1234b1234".toList].map Slot.str) :=
  (expansion_replaces_every_marker 1234 ["echo".toList, "a$$b$$".toList] []).1

/-! ## Tokens -/

theorem strtokGo_in_token (s : CStr) :
    ∀ cur : CStr, cur ≠ [] →
      strtokGo s cur =
        (cur ++ s.takeWhile (fun c => c != ' ')) ::
          strtokGo ((s.dropWhile (fun c => c != ' ')).drop 1) [] := by
  induction s with
  | nil => intro cur h; simp [strtokGo, h]
  | cons c cs ih =>
    intro cur h
    by_cases hc : c = ' '
    · subst hc
      simp [strtokGo, h]
    · have h2 : cur ++ [c] ≠ [] := by simp
      simp [strtokGo, hc, ih (cur ++ [c]) h2, List.takeWhile_cons, List.dropWhile_cons]

/-- The token list is what repeated calls of `strtok` return: its head is the
token of the first call and its tail is the token list of the saved position. -/
theorem strtokAll_eq_strtok (s : CStr) :
    strtokAll s =
      match strtok s with
      | none => []
      | some (t, r) => t :: strtokAll r := by
  induction s with
  | nil => simp [strtokAll, strtokGo, strtok]
  | cons c cs ih =>
    by_cases hc : c = ' '
    · subst hc
      have e1 : strtokAll (' ' :: cs) = strtokAll cs := by simp [strtokAll, strtokGo]
      have e2 : strtok (' ' :: cs) = strtok cs := by simp [strtok, List.dropWhile_cons]
      rw [e1, e2, ih]
    · have e1 : strtokAll (c :: cs) = strtokGo cs [c] := by simp [strtokAll, strtokGo, hc]
      have e2 : strtok (c :: cs)
          = some ((c :: cs).takeWhile (fun c => c != ' '),
              ((c :: cs).dropWhile (fun c => c != ' ')).drop 1) := by
        simp [strtok, List.dropWhile_cons, hc]
      rw [e1, e2, strtokGo_in_token cs [c] (by simp)]
      simp [List.takeWhile_cons, List.dropWhile_cons, hc, strtokAll]

theorem strtokGo_append (t : CStr) :
    ∀ (cur x : CStr), ' ' ∉ t → strtokGo (t ++ x) cur = strtokGo x (cur ++ t) := by
  induction t with
  | nil => intro cur x _; simp
  | cons c t ih =>
    intro cur x h
    have hc : c ≠ ' ' := fun hc => h (by simp [hc])
    have ht : ' ' ∉ t := fun ht => h (by simp [ht])
    simp [strtokGo, hc, ih (cur ++ [c]) x ht]

/-- A line written as tokens separated by single spaces is split back into
those tokens. -/
theorem strtokAll_joinTokens :
    ∀ ts : List CStr, (∀ t ∈ ts, IsToken t) → strtokAll (joinTokens ts) = ts := by
  intro ts
  induction ts with
  | nil => intro _; simp [strtokAll, joinTokens, strtokGo]
  | cons t ts ih =>
    intro h
    have ht : IsToken t := h t (by simp)
    have hts : ∀ u ∈ ts, IsToken u := fun u hu => h u (by simp [hu])
    cases ts with
    | nil =>
      have := strtokGo_append t [] [] ht.2
      simp only [List.append_nil, List.nil_append] at this
      simp [strtokAll, joinTokens, this, strtokGo, ht.1]
    | cons u rest =>
      have e := strtokGo_append t [] (' ' :: joinTokens (u :: rest)) ht.2
      have ih2 := ih hts
      unfold strtokAll at ih2 ⊢
      simp only [joinTokens, List.nil_append] at e ⊢
      rw [e]
      simp [strtokGo, ht.1, ih2]

/-! ## The token scan of `parseCommand` -/

theorem addArgument_frame (c : command) (a : CStr) :
    (addArgument c a).command = c.command ∧ (addArgument c a).inputFile = c.inputFile ∧
    (addArgument c a).outputFile = c.outputFile ∧
    (addArgument c a).isBackground = c.isBackground := by
  by_cases h : c.argumentCapacity ≤ c.numArguments + 1
  · rw [addArgument_grow c a h]
    exact ⟨rfl, rfl, rfl, rfl⟩
  · rw [addArgument_fit c a h]
    exact ⟨rfl, rfl, rfl, rfl⟩

theorem parseLoop_word (w : CStr) (rest : List CStr) (c : command) (hw : ¬ IsOperator w) :
    parseLoop (w :: rest) c = parseLoop rest (addArgument c w) := by
  have h1 : w ≠ ['<'] := fun h => hw (Or.inl h)
  have h2 : w ≠ ['>'] := fun h => hw (Or.inr (Or.inl h))
  have h3 : w ≠ ['&'] := fun h => hw (Or.inr (Or.inr h))
  cases rest <;> simp [parseLoop, h1, h2, h3]

theorem parseLoop_input (file : CStr) (rest : List CStr) (c : command) :
    parseLoop (['<'] :: file :: rest) c = parseLoop rest { c with inputFile := some file } := by
  simp [parseLoop]

theorem parseLoop_output (file : CStr) (rest : List CStr) (c : command) :
    parseLoop (['>'] :: file :: rest) c = parseLoop rest { c with outputFile := some file } := by
  simp [parseLoop]

theorem parseLoop_amp (next : CStr) (rest : List CStr) (c : command) :
    parseLoop (['&'] :: next :: rest) c =
      parseLoop rest (addArgument (addArgument { c with isBackground := 0 } ['&']) next) := by
  simp [parseLoop]

theorem parseLoop_amp_last (c : command) :
    parseLoop [['&']] c = .ok { c with isBackground := 1 } := by
  simp [parseLoop]

/-- Scanning the tokens of a sequence of items: the scan goes on with the
tokens that follow, the arguments of the items are appended in order, the
redirections are those of the last `<` and `>` items, and the background flag
is still 0. -/
theorem parseLoop_items :
    ∀ (items : List Item) (c : command) (xs : List CStr) (tail : List CStr),
      (∀ it ∈ items, it.WellFormed) → ArgInv c xs → c.isBackground = 0 →
      ∃ c2, parseLoop (items.flatMap Item.tokens ++ tail) c = parseLoop tail c2 ∧
        ArgInv c2 (xs ++ items.flatMap Item.args) ∧ c2.command = c.command ∧
        c2.isBackground = 0 ∧ c2.inputFile = redirectInput items c.inputFile ∧
        c2.outputFile = redirectOutput items c.outputFile := by
  intro items
  induction items with
  | nil =>
    intro c xs tail _ hinv hbg
    exact ⟨c, by simp, by simpa using hinv, rfl, hbg, rfl, rfl⟩
  | cons it items ih =>
    intro c xs tail hwf hinv hbg
    have hwf2 : ∀ it ∈ items, it.WellFormed := fun i hi => hwf i (by simp [hi])
    have hit : it.WellFormed := hwf it (by simp)
    cases it with
    | word w =>
      obtain ⟨f1, f2, f3, f4⟩ := addArgument_frame c w
      obtain ⟨c2, h1, h2, h3, h4, h5, h6⟩ := ih (addArgument c w) (xs ++ [w]) tail hwf2
        (addArgument_inv c xs w hinv) (by rw [f4, hbg])
      refine ⟨c2, ?_, ?_, ?_, h4, ?_, ?_⟩
      · simp only [List.flatMap_cons, Item.tokens, List.cons_append, List.nil_append]
        rw [parseLoop_word w _ c hit, h1]
      · simpa [Item.args] using h2
      · rw [h3, f1]
      · rw [h5, f2]; rfl
      · rw [h6, f3]; rfl
    | input file =>
      obtain ⟨c2, h1, h2, h3, h4, h5, h6⟩ := ih { c with inputFile := some file } xs tail hwf2
        hinv hbg
      refine ⟨c2, ?_, ?_, h3, h4, ?_, ?_⟩
      · simp only [List.flatMap_cons, Item.tokens, List.cons_append, List.nil_append]
        rw [parseLoop_input, h1]
      · simpa [Item.args] using h2
      · rw [h5]; rfl
      · rw [h6]; rfl
    | output file =>
      obtain ⟨c2, h1, h2, h3, h4, h5, h6⟩ := ih { c with outputFile := some file } xs tail hwf2
        hinv hbg
      refine ⟨c2, ?_, ?_, h3, h4, ?_, ?_⟩
      · simp only [List.flatMap_cons, Item.tokens, List.cons_append, List.nil_append]
        rw [parseLoop_output, h1]
      · simpa [Item.args] using h2
      · rw [h5]; rfl
      · rw [h6]; rfl
    | amp next =>
      have hinv0 : ArgInv { c with isBackground := 0 } xs := hinv
      obtain ⟨f1, f2, f3, f4⟩ := addArgument_frame { c with isBackground := 0 } ['&']
      obtain ⟨g1, g2, g3, g4⟩ :=
        addArgument_frame (addArgument { c with isBackground := 0 } ['&']) next
      obtain ⟨c2, h1, h2, h3, h4, h5, h6⟩ :=
        ih (addArgument (addArgument { c with isBackground := 0 } ['&']) next)
          (xs ++ [['&']] ++ [next]) tail hwf2
          (addArgument_inv _ _ next (addArgument_inv _ xs ['&'] hinv0)) (by rw [g4, f4])
      refine ⟨c2, ?_, ?_, ?_, h4, ?_, ?_⟩
      · simp only [List.flatMap_cons, Item.tokens, List.cons_append, List.nil_append]
        rw [parseLoop_amp, h1]
      · simpa [Item.args] using h2
      · rw [h3, g1, f1]
      · rw [h5, g2, f2]; rfl
      · rw [h6, g3, f3]; rfl

/-- Every successful scan read a sequence of items, possibly followed by one
final `&`; the background flag tells which. -/
theorem parseLoop_shape :
    ∀ (n : Nat) (toks : List CStr) (c c2 : command), toks.length ≤ n →
      parseLoop toks c = .ok c2 → c.isBackground = 0 →
      ∃ items : List Item, (∀ it ∈ items, it.WellFormed) ∧
        ((toks = items.flatMap Item.tokens ∧ c2.isBackground = 0) ∨
         (toks = items.flatMap Item.tokens ++ [['&']] ∧ c2.isBackground = 1)) := by
  intro n
  induction n using Nat.strong_induction_on with
  | _ n ih =>
    intro toks c c2 hlen h hbg
    cases toks with
    | nil =>
      simp only [parseLoop, Except.ok.injEq] at h
      subst h
      exact ⟨[], by simp, Or.inl ⟨by simp, hbg⟩⟩
    | cons tok rest =>
      by_cases hop : IsOperator tok
      · rcases hop with rfl | rfl | rfl
        · cases rest with
          | nil => simp [parseLoop] at h
          | cons file rest2 =>
            rw [parseLoop_input] at h
            simp only [List.length_cons] at hlen
            obtain ⟨items, hwf, hsh⟩ := ih (n - 2) (by omega) rest2 _ c2 (by omega) h hbg
            refine ⟨Item.input file :: items, ?_, ?_⟩
            · intro it hit
              rcases List.mem_cons.mp hit with rfl | hit
              · trivial
              · exact hwf it hit
            · rcases hsh with ⟨h1, h2⟩ | ⟨h1, h2⟩
              · exact Or.inl ⟨by simp [Item.tokens, h1], h2⟩
              · exact Or.inr ⟨by simp [Item.tokens, h1], h2⟩
        · cases rest with
          | nil => simp [parseLoop] at h
          | cons file rest2 =>
            rw [parseLoop_output] at h
            simp only [List.length_cons] at hlen
            obtain ⟨items, hwf, hsh⟩ := ih (n - 2) (by omega) rest2 _ c2 (by omega) h hbg
            refine ⟨Item.output file :: items, ?_, ?_⟩
            · intro it hit
              rcases List.mem_cons.mp hit with rfl | hit
              · trivial
              · exact hwf it hit
            · rcases hsh with ⟨h1, h2⟩ | ⟨h1, h2⟩
              · exact Or.inl ⟨by simp [Item.tokens, h1], h2⟩
              · exact Or.inr ⟨by simp [Item.tokens, h1], h2⟩
        · cases rest with
          | nil =>
            rw [parseLoop_amp_last] at h
            simp only [Except.ok.injEq] at h
            subst h
            exact ⟨[], by simp, Or.inr ⟨by simp, rfl⟩⟩
          | cons next rest2 =>
            rw [parseLoop_amp] at h
            simp only [List.length_cons] at hlen
            have hbg2 : (addArgument (addArgument { c with isBackground := 0 } ['&'])
                next).isBackground = 0 := by
              rw [(addArgument_frame _ _).2.2.2, (addArgument_frame _ _).2.2.2]
            obtain ⟨items, hwf, hsh⟩ := ih (n - 2) (by omega) rest2 _ c2 (by omega) h hbg2
            refine ⟨Item.amp next :: items, ?_, ?_⟩
            · intro it hit
              rcases List.mem_cons.mp hit with rfl | hit
              · trivial
              · exact hwf it hit
            · rcases hsh with ⟨h1, h2⟩ | ⟨h1, h2⟩
              · exact Or.inl ⟨by simp [Item.tokens, h1], h2⟩
              · exact Or.inr ⟨by simp [Item.tokens, h1], h2⟩
      · rw [parseLoop_word tok rest c hop] at h
        simp only [List.length_cons] at hlen
        have hbg2 : (addArgument c tok).isBackground = 0 := by
          rw [(addArgument_frame _ _).2.2.2, hbg]
        obtain ⟨items, hwf, hsh⟩ := ih (n - 1) (by omega) rest _ c2 (by omega) h hbg2
        refine ⟨Item.word tok :: items, ?_, ?_⟩
        · intro it hit
          rcases List.mem_cons.mp hit with rfl | hit
          · exact hop
          · exact hwf it hit
        · rcases hsh with ⟨h1, h2⟩ | ⟨h1, h2⟩
          · exact Or.inl ⟨by simp [Item.tokens, h1], h2⟩
          · exact Or.inr ⟨by simp [Item.tokens, h1], h2⟩

/-- What `parseCommand` computed when it returns a command. -/
theorem parseCommand_some (pid : Nat) (line : CStr) (c : command)
    (h : parseCommand pid line = .ok (some c)) :
    ∃ token rest c0 arr, strtokAll line = token :: rest ∧
      parseLoop rest (newCommand token) = .ok c0 ∧
      expansionVariablePIDReplace pid c0.numArguments c0.argumentsArray = .ok arr ∧
      c = { c0 with argumentsArray := arr } := by
  unfold parseCommand at h
  by_cases h0 : line.length = 0 ∨ line.head? = some '#'
  · rw [if_pos h0] at h
    simp at h
  · rw [if_neg h0] at h
    cases ht : strtokAll line with
    | nil => simp [ht] at h
    | cons token rest =>
      simp only [ht] at h
      cases hl : parseLoop rest (newCommand token) with
      | error e => simp [hl] at h
      | ok c0 =>
        simp only [hl] at h
        cases he : expansionVariablePIDReplace pid c0.numArguments c0.argumentsArray with
        | error e => simp [he] at h
        | ok arr =>
          simp only [he, Except.ok.injEq, Option.some.injEq] at h
          exact ⟨token, rest, c0, arr, rfl, hl, he, h.symm⟩

/-- The command `parseCommand` returns once the scan of the tokens after the
first has produced a record with a well-formed argument array. -/
theorem parseCommand_of_scan (pid : Nat) (line : CStr) (token : CStr) (rest : List CStr)
    (c0 : command) (xs : List CStr) (h0 : ¬ (line.length = 0 ∨ line.head? = some '#'))
    (ht : strtokAll line = token :: rest)
    (hl : parseLoop rest (newCommand token) = .ok c0) (hinv : ArgInv c0 xs) :
    parseCommand pid line = .ok (some { c0 with
      argumentsArray := xs.map (fun s => Slot.str (replaceAllDollars (pidString pid) s)) ++
        List.replicate (c0.argumentCapacity - c0.numArguments) Slot.null }) := by
  obtain ⟨hn, _, _, harr⟩ := hinv
  have he := expansionVariablePIDReplace_args pid xs
    (List.replicate (c0.argumentCapacity - c0.numArguments) Slot.null)
  rw [← hn, ← harr] at he
  unfold parseCommand
  rw [if_neg h0]
  simp only [ht, hl, he]

theorem joinTokens_head (t u : CStr) (rest : List CStr) (ht : t ≠ []) :
    (joinTokens (t :: u :: rest)).head? = t.head? ∧ (joinTokens (t :: u :: rest)).length ≠ 0 := by
  cases t with
  | nil => exact absurd rfl ht
  | cons c t => simp [joinTokens]

theorem redirectInput_words (ws : List CStr) (init : Option CStr) (tail : List Item) :
    redirectInput (ws.map Item.word ++ tail) init = redirectInput tail init := by
  induction ws with
  | nil => simp
  | cons w ws ih =>
    simp only [redirectInput, List.map_cons, List.cons_append, List.foldl_cons] at ih ⊢
    exact ih

theorem redirectOutput_words (ws : List CStr) (init : Option CStr) (tail : List Item) :
    redirectOutput (ws.map Item.word ++ tail) init = redirectOutput tail init := by
  induction ws with
  | nil => simp
  | cons w ws ih =>
    simp only [redirectOutput, List.map_cons, List.cons_append, List.foldl_cons] at ih ⊢
    exact ih

theorem flatMap_words (ws : List CStr) (tail : List Item) :
    (ws.map Item.word ++ tail).flatMap Item.tokens = ws ++ tail.flatMap Item.tokens ∧
    (ws.map Item.word ++ tail).flatMap Item.args = ws ++ tail.flatMap Item.args := by
  induction ws with
  | nil => simp
  | cons w ws ih => simp [Item.tokens, Item.args, ih.1, ih.2]

/-- Claim C1: a line `p a1 .. an < IN > OUT` written with single spaces, where
`p` does not start with `#` and none of `p`, the `ai`, `IN`, `OUT` is `<`, `>`
or `&` or contains `$$`, is parsed into a command with program `p`, arguments
`[p, a1, .., an]`, `numArguments = n + 1`, input file `IN`, output file `OUT`
and background flag 0. -/
theorem parseCommand_redirection (pid : Nat) (p inFile outFile : CStr) (as : List CStr)
    (htok : ∀ t ∈ p :: as ++ [inFile, outFile], IsToken t)
    (hhash : p.head? ≠ some '#')
    (hop : ∀ t ∈ p :: as ++ [inFile, outFile], ¬ IsOperator t)
    (hdd : ∀ t ∈ p :: as ++ [inFile, outFile], ¬ ContainsDollars t) :
    ∃ c, parseCommand pid (joinTokens (p :: as ++ [['<'], inFile, ['>'], outFile]))
        = .ok (some c) ∧
      c.command = p ∧ argv c = (p :: as).map Slot.str ∧ c.numArguments = as.length + 1 ∧
      c.inputFile = some inFile ∧ c.outputFile = some outFile ∧ c.isBackground = 0 := by
  have hp : IsToken p := htok p (by simp)
  have hall : ∀ t ∈ p :: as ++ [['<'], inFile, ['>'], outFile], IsToken t := by
    intro t ht
    simp only [List.cons_append, List.mem_cons, List.mem_append, List.mem_singleton,
      List.not_mem_nil, or_false] at ht
    rcases ht with rfl | h | rfl | rfl | rfl | rfl
    · exact hp
    · exact htok t (by simp [h])
    · exact ⟨by simp, by simp⟩
    · exact htok _ (by simp)
    · exact ⟨by simp, by simp⟩
    · exact htok _ (by simp)
  have htoks := strtokAll_joinTokens _ hall
  have h0 : ¬ ((joinTokens (p :: as ++ [['<'], inFile, ['>'], outFile])).length = 0 ∨
      (joinTokens (p :: as ++ [['<'], inFile, ['>'], outFile])).head? = some '#') := by
    cases as with
    | nil =>
      have := joinTokens_head p ['<'] [inFile, ['>'], outFile] hp.1
      simp only [List.cons_append, List.nil_append]
      rw [this.1]
      exact fun h => h.elim this.2 hhash
    | cons a as =>
      have := joinTokens_head p a (as ++ [['<'], inFile, ['>'], outFile]) hp.1
      simp only [List.cons_append]
      rw [this.1]
      exact fun h => h.elim this.2 hhash
  have hwf : ∀ it ∈ as.map Item.word ++ [Item.input inFile, Item.output outFile],
      it.WellFormed := by
    intro it hit
    simp only [List.mem_append, List.mem_map, List.mem_cons, List.mem_singleton,
      List.not_mem_nil, or_false] at hit
    rcases hit with ⟨a, ha, rfl⟩ | rfl | rfl
    · exact hop a (by simp [ha])
    · trivial
    · trivial
  obtain ⟨c2, h1, h2, h3, h4, h5, h6⟩ :=
    parseLoop_items (as.map Item.word ++ [Item.input inFile, Item.output outFile])
      (newCommand p) [p] [] hwf (newCommand_inv p) rfl
  have hfm := flatMap_words as [Item.input inFile, Item.output outFile]
  rw [hfm.1] at h1
  rw [hfm.2] at h2
  simp only [List.flatMap_cons, List.flatMap_nil, Item.tokens, Item.args, List.append_nil,
    List.cons_append, List.nil_append, parseLoop] at h1 h2
  have hparse := parseCommand_of_scan pid _ p (as ++ [['<'], inFile, ['>'], outFile]) c2
    (p :: as) h0 (by simpa using htoks) h1 h2
  have hsame : (p :: as).map (fun s => Slot.str (replaceAllDollars (pidString pid) s))
      = (p :: as).map Slot.str := by
    apply List.map_congr_left
    intro t ht
    rw [replaceAllDollars_of_none _ t
      ((strstrDollars_none_iff t).mpr (hdd t (by
        simp only [List.cons_append, List.mem_cons, List.mem_append] at ht ⊢
        tauto)))]
  rw [hsame] at hparse
  refine ⟨_, hparse, h3, ?_, ?_, ?_, ?_, h4⟩
  · show List.take c2.numArguments _ = _
    rw [h2.1]
    simp
  · show c2.numArguments = _
    rw [h2.1]
    simp
  · show c2.inputFile = _
    rw [h5, redirectInput_words]
    rfl
  · show c2.outputFile = _
    rw [h6, redirectOutput_words]
    rfl

/-- Claim C1, witness: `sort < in.txt > out.txt` gives program `sort`,
arguments `[sort]`, input file `in.txt`, output file `out.txt`, background 0. -/
theorem parseCommand_redirection_witness :
    ∃ c, parseCommand 1234 "sort < in.txt > out.txt".toList = .ok (some c) ∧
      c.command = "sort".toList ∧ argv c = ["sort".toList].map Slot.str ∧
      c.numArguments = 1 ∧ c.inputFile = some "in.txt".toList ∧
      c.outputFile = some "out.txt".toList ∧ c.isBackground = 0 :=
  parseCommand_redirection 1234 "sort".toList "in.txt".toList "out.txt".toList []
    (by decide) (by decide) (by decide)
    (by
      intro t ht
      rw [← strstrDollars_none_iff]
      simp only [List.cons_append, List.nil_append, List.mem_cons, List.mem_singleton,
        List.not_mem_nil, or_false] at ht
      rcases ht with rfl | rfl | rfl <;> decide)

theorem argv_of_scan (pid : Nat) (c0 : command) (xs : List CStr) (arr : List Slot)
    (hinv : ArgInv c0 xs)
    (he : expansionVariablePIDReplace pid c0.numArguments c0.argumentsArray = .ok arr) :
    argv { c0 with argumentsArray := arr }
      = xs.map (fun s => Slot.str (replaceAllDollars (pidString pid) s)) := by
  obtain ⟨hn, _, _, harr⟩ := hinv
  rw [harr, hn, expansionVariablePIDReplace_args] at he
  simp only [Except.ok.injEq] at he
  show List.take c0.numArguments arr = _
  rw [← he, hn]
  simp

/-- The scan of `items` followed by one final `&`. -/
theorem parseLoop_items_amp (items : List Item) (token : CStr)
    (hwf : ∀ it ∈ items, it.WellFormed) :
    ∃ c0, parseLoop (items.flatMap Item.tokens ++ [['&']]) (newCommand token) = .ok c0 ∧
      ArgInv c0 (token :: items.flatMap Item.args) ∧ c0.isBackground = 1 := by
  obtain ⟨c2, h1, h2, _, _, _, _⟩ :=
    parseLoop_items items (newCommand token) [token] [['&']] hwf (newCommand_inv token) rfl
  rw [parseLoop_amp_last] at h1
  exact ⟨_, h1, h2, rfl⟩

/-- The scan of `items` with nothing after them. -/
theorem parseLoop_items_only (items : List Item) (token : CStr)
    (hwf : ∀ it ∈ items, it.WellFormed) :
    ∃ c0, parseLoop (items.flatMap Item.tokens) (newCommand token) = .ok c0 ∧
      ArgInv c0 (token :: items.flatMap Item.args) ∧ c0.isBackground = 0 := by
  obtain ⟨c2, h1, h2, _, h4, _, _⟩ :=
    parseLoop_items items (newCommand token) [token] [] hwf (newCommand_inv token) rfl
  simp only [List.append_nil, parseLoop] at h1
  exact ⟨_, h1, h2, h4⟩

/-- Claim C2, as stated, fails on `ls & &`: the line has three tokens and its
final token is `&`, a command is produced, yet the background flag is 0 and
both `&` are arguments. -/
theorem background_rule_counterexample :
    ∃ c, parseCommand 1234 "ls & &".toList = .ok (some c) ∧
      2 ≤ (strtokAll "ls & &".toList).length ∧
      (strtokAll "ls & &".toList).getLast? = some ['&'] ∧
      c.isBackground = 0 ∧
      argv c = ["ls".toList, "&".toList, "&".toList].map Slot.str := by
  refine ⟨_, rfl, ?_, ?_, ?_, ?_⟩ <;> decide

/-- Claim C2, amended: for every line on which `parseCommand` produces a
command, the background flag is 1 exactly when the tokens after the first are
a sequence of items (a plain word, or `<`, `>` or `&` followed by its operand
token) followed by one final `&`; then the line has at least two tokens, its
final token is `&`, and the arguments are the first token and the arguments of
the items, expanded, without the final `&`. An `&` item followed by its token
contributes both as ordinary arguments, and a line that is a sequence of items
only has background flag 0. -/
theorem background_rule (pid : Nat) (line : CStr) (c : command)
    (h : parseCommand pid line = .ok (some c)) :
    (c.isBackground = 1 ↔
      ∃ (p : CStr) (items : List Item), (∀ it ∈ items, Item.WellFormed it) ∧
        strtokAll line = p :: (items.flatMap Item.tokens ++ [['&']])) ∧
    (c.isBackground = 1 →
      2 ≤ (strtokAll line).length ∧ (strtokAll line).getLast? = some ['&']) ∧
    (∀ (p : CStr) (items : List Item), (∀ it ∈ items, Item.WellFormed it) →
      strtokAll line = p :: (items.flatMap Item.tokens ++ [['&']]) →
      argv c = (p :: items.flatMap Item.args).map
        (fun s => Slot.str (replaceAllDollars (pidString pid) s))) ∧
    (∀ (p : CStr) (items : List Item), (∀ it ∈ items, Item.WellFormed it) →
      strtokAll line = p :: items.flatMap Item.tokens →
      c.isBackground = 0 ∧
      argv c = (p :: items.flatMap Item.args).map
        (fun s => Slot.str (replaceAllDollars (pidString pid) s))) := by
  obtain ⟨token, rest, c0, arr, ht, hl, he, rfl⟩ := parseCommand_some pid line c h
  have hA : ∀ (p : CStr) (items : List Item), (∀ it ∈ items, Item.WellFormed it) →
      strtokAll line = p :: (items.flatMap Item.tokens ++ [['&']]) →
      c0.isBackground = 1 ∧ ArgInv c0 (p :: items.flatMap Item.args) := by
    intro p items hwf hline
    rw [ht] at hline
    simp only [List.cons.injEq] at hline
    obtain ⟨rfl, rfl⟩ := hline
    obtain ⟨c1, h1, h2, h3⟩ := parseLoop_items_amp items token hwf
    rw [hl] at h1
    simp only [Except.ok.injEq] at h1
    subst h1
    exact ⟨h3, h2⟩
  have hB : ∀ (p : CStr) (items : List Item), (∀ it ∈ items, Item.WellFormed it) →
      strtokAll line = p :: items.flatMap Item.tokens →
      c0.isBackground = 0 ∧ ArgInv c0 (p :: items.flatMap Item.args) := by
    intro p items hwf hline
    rw [ht] at hline
    simp only [List.cons.injEq] at hline
    obtain ⟨rfl, rfl⟩ := hline
    obtain ⟨c1, h1, h2, h3⟩ := parseLoop_items_only items token hwf
    rw [hl] at h1
    simp only [Except.ok.injEq] at h1
    subst h1
    exact ⟨h3, h2⟩
  have hiff : c0.isBackground = 1 ↔
      ∃ (p : CStr) (items : List Item), (∀ it ∈ items, Item.WellFormed it) ∧
        strtokAll line = p :: (items.flatMap Item.tokens ++ [['&']]) := by
    constructor
    · intro hbg
      obtain ⟨items, hwf, hsh⟩ := parseLoop_shape rest.length rest (newCommand token) c0
        (le_refl _) hl rfl
      rcases hsh with ⟨_, h2⟩ | ⟨h1, _⟩
      · rw [h2] at hbg
        exact absurd hbg (by decide)
      · exact ⟨token, items, hwf, by rw [ht, h1]⟩
    · rintro ⟨p, items, hwf, hline⟩
      exact (hA p items hwf hline).1
  refine ⟨hiff, ?_, ?_, ?_⟩
  · intro hbg
    obtain ⟨p, items, _, hline⟩ := hiff.mp hbg
    rw [hline]
    constructor
    · simp
    · rw [← List.cons_append, List.getLast?_append]
      simp
  · intro p items hwf hline
    exact argv_of_scan pid c0 _ arr (hA p items hwf hline).2 he
  · intro p items hwf hline
    exact ⟨(hB p items hwf hline).1, argv_of_scan pid c0 _ arr (hB p items hwf hline).2 he⟩

/-- Claim C2, witnesses: `ls &` gives background flag 1 and arguments `[ls]`;
`ls & foo` gives background flag 0 and arguments `[ls, &, foo]`. -/
theorem background_rule_witness :
    (∃ c, parseCommand 1234 "ls &".toList = .ok (some c) ∧ c.isBackground = 1 ∧
      argv c = ["ls".toList].map Slot.str) ∧
    (∃ c, parseCommand 1234 "ls & foo".toList = .ok (some c) ∧ c.isBackground = 0 ∧
      argv c = ["ls".toList, "&".toList, "foo".toList].map Slot.str) := by
  refine ⟨⟨_, rfl, ?_, ?_⟩, ⟨_, rfl, ?_, ?_⟩⟩
  · exact (background_rule 1234 "ls &".toList _ rfl).1.mpr ⟨"ls".toList, [], by simp, by decide⟩
  · exact (background_rule 1234 "ls &".toList _ rfl).2.2.1 "ls".toList [] (by simp) (by decide)
  · exact ((background_rule 1234 "ls & foo".toList _ rfl).2.2.2 "ls".toList
      [Item.amp "foo".toList] (by simp [Item.WellFormed]) (by decide)).1
  · exact ((background_rule 1234 "ls & foo".toList _ rfl).2.2.2 "ls".toList
      [Item.amp "foo".toList] (by simp [Item.WellFormed]) (by decide)).2

/-- A successful scan leaves a well-formed argument array that starts with the
first token, and the program name is that token. -/
theorem parseLoop_ok_inv (token : CStr) (rest : List CStr) (c0 : command)
    (hl : parseLoop rest (newCommand token) = .ok c0) :
    ∃ xs, ArgInv c0 (token :: xs) ∧ c0.command = token := by
  obtain ⟨items, hwf, hsh⟩ := parseLoop_shape rest.length rest (newCommand token) c0
    (le_refl _) hl rfl
  rcases hsh with ⟨h1, _⟩ | ⟨h1, _⟩
  · obtain ⟨c2, g1, g2, g3, _, _, _⟩ :=
      parseLoop_items items (newCommand token) [token] [] hwf (newCommand_inv token) rfl
    simp only [List.append_nil, parseLoop] at g1
    rw [← h1, hl] at g1
    simp only [Except.ok.injEq] at g1
    subst g1
    exact ⟨_, g2, g3⟩
  · obtain ⟨c2, g1, g2, g3, _, _, _⟩ :=
      parseLoop_items items (newCommand token) [token] [['&']] hwf (newCommand_inv token) rfl
    rw [parseLoop_amp_last, ← h1, hl] at g1
    simp only [Except.ok.injEq] at g1
    subst g1
    exact ⟨_, g2, g3⟩

/-- The scan fails only by using a `NULL` token. -/
theorem parseLoop_error :
    ∀ (n : Nat) (toks : List CStr) (c : command) (e : Fault), toks.length ≤ n →
      parseLoop toks c = .error e → e = Fault.nullDeref := by
  intro n
  induction n using Nat.strong_induction_on with
  | _ n ih =>
    intro toks c e hlen h
    cases toks with
    | nil => simp [parseLoop] at h
    | cons tok rest =>
      by_cases hop : IsOperator tok
      · rcases hop with rfl | rfl | rfl
        · cases rest with
          | nil =>
            simp only [parseLoop, if_true, Except.error.injEq] at h
            exact h.symm
          | cons file rest2 =>
            rw [parseLoop_input] at h
            simp only [List.length_cons] at hlen
            exact ih (n - 2) (by omega) rest2 _ e (by omega) h
        · cases rest with
          | nil =>
            simp [parseLoop] at h
            exact h.symm
          | cons file rest2 =>
            rw [parseLoop_output] at h
            simp only [List.length_cons] at hlen
            exact ih (n - 2) (by omega) rest2 _ e (by omega) h
        · cases rest with
          | nil => simp [parseLoop] at h
          | cons next rest2 =>
            rw [parseLoop_amp] at h
            simp only [List.length_cons] at hlen
            exact ih (n - 2) (by omega) rest2 _ e (by omega) h
      · rw [parseLoop_word tok rest c hop] at h
        simp only [List.length_cons] at hlen
        exact ih (n - 1) (by omega) rest _ e (by omega) h

/-- The embedded `parseCommand` never runs out of iterations: it returns `NULL`,
returns a command, or uses a `NULL` token. -/
theorem parseCommand_total (pid : Nat) (line : CStr) :
    parseCommand pid line = .ok none ∨ (∃ c, parseCommand pid line = .ok (some c)) ∨
    parseCommand pid line = .error Fault.nullDeref := by
  unfold parseCommand
  by_cases h0 : line.length = 0 ∨ line.head? = some '#'
  · rw [if_pos h0]
    exact Or.inl rfl
  · rw [if_neg h0]
    cases ht : strtokAll line with
    | nil => exact Or.inr (Or.inr rfl)
    | cons token rest =>
      dsimp only
      cases hl : parseLoop rest (newCommand token) with
      | error e =>
        have := parseLoop_error rest.length rest _ e (le_refl _) hl
        subst this
        exact Or.inr (Or.inr rfl)
      | ok c0 =>
        obtain ⟨xs, hinv, _⟩ := parseLoop_ok_inv token rest c0 hl
        have he := expansionVariablePIDReplace_args pid (token :: xs)
          (List.replicate (c0.argumentCapacity - c0.numArguments) Slot.null)
        rw [← hinv.1, ← hinv.2.2.2] at he
        simp only [he]
        exact Or.inr (Or.inl ⟨_, rfl⟩)

/-! ## Program name and first argument -/

/-- Every command `parseCommand` returns has at least one argument, and its
first argument is the program name with the markers `$$` expanded. -/
theorem first_argument_is_expanded_program (pid : Nat) (line : CStr) (c : command)
    (h : parseCommand pid line = .ok (some c)) :
    1 ≤ c.numArguments ∧
    c.argumentsArray[0]? =
      some (Slot.str (replaceAllDollars (pidString pid) c.command)) := by
  obtain ⟨token, rest, c0, arr, ht, hl, he, rfl⟩ := parseCommand_some pid line c h
  obtain ⟨xs, hinv, hcmd⟩ := parseLoop_ok_inv token rest c0 hl
  have hargv := argv_of_scan pid c0 _ arr hinv he
  have hn : c0.numArguments = xs.length + 1 := by simpa using hinv.1
  constructor
  · show 1 ≤ c0.numArguments
    omega
  · show arr[0]? = some (Slot.str (replaceAllDollars (pidString pid) c0.command))
    have h0 : (argv { c0 with argumentsArray := arr })[0]? = arr[0]? := by
      show (List.take c0.numArguments arr)[0]? = arr[0]?
      rw [List.getElem?_take]
      simp [hn]
    rw [← h0, hargv, hcmd]
    simp

/-- Claim C4, at the line `$$` with process id 1234: a command is returned whose
program name is still `$$` while its first argument is `1234`. -/
theorem program_differs_from_first_argument :
    ∃ c, parseCommand 1234 "$$".toList = .ok (some c) ∧
      c.numArguments = 1 ∧ c.command = "$$".toList ∧
      c.argumentsArray[0]? = some (Slot.str "1234".toList) ∧
      Slot.str c.command ≠ c.argumentsArray.getD 0 Slot.null := by
  refine ⟨_, rfl, ?_, ?_, ?_, ?_⟩ <;> decide

/-! ## Lines without a command -/

/-- The empty line and every line whose first character is `#` give `NULL`. -/
theorem parseCommand_no_command (pid : Nat) (line : CStr)
    (h : line = [] ∨ line.head? = some '#') : parseCommand pid line = .ok none := by
  unfold parseCommand
  have h2 : line.length = 0 ∨ line.head? = some '#' := by
    rcases h with rfl | h
    · exact Or.inl rfl
    · exact Or.inr h
  rw [if_pos h2]

/-- Exactly the empty line and the lines starting with `#` give `NULL`. -/
theorem parseCommand_none_iff (pid : Nat) (line : CStr) :
    parseCommand pid line = .ok none ↔ (line = [] ∨ line.head? = some '#') := by
  constructor
  · intro h
    by_contra hcon
    have h0 : ¬ (line.length = 0 ∨ line.head? = some '#') := by
      intro h0
      rcases h0 with h0 | h0
      · exact hcon (Or.inl (List.length_eq_zero.mp h0))
      · exact hcon (Or.inr h0)
    unfold parseCommand at h
    rw [if_neg h0] at h
    cases ht : strtokAll line with
    | nil => simp [ht] at h
    | cons token rest =>
      simp only [ht] at h
      cases hl : parseLoop rest (newCommand token) with
      | error e => simp [hl] at h
      | ok c0 =>
        simp only [hl] at h
        cases he : expansionVariablePIDReplace pid c0.numArguments c0.argumentsArray with
        | error e => simp [he] at h
        | ok arr => simp [he] at h
  · exact parseCommand_no_command pid line

theorem strtokAll_spaces (n : Nat) : strtokAll (List.replicate n ' ') = [] := by
  unfold strtokAll
  induction n with
  | zero => simp [strtokGo]
  | succ n ih => simp [List.replicate_succ, strtokGo, ih]

/-- Claim C5, at the lines made of one or more spaces: `parseCommand` does not
return `NULL`; `strtok` yields no token and the `NULL` token is passed to
`strlen`. -/
theorem parseCommand_spaces_fault (pid n : Nat) :
    parseCommand pid (List.replicate (n + 1) ' ') = .error Fault.nullDeref := by
  unfold parseCommand
  have h0 : ¬ ((List.replicate (n + 1) ' ').length = 0 ∨
      (List.replicate (n + 1) ' ').head? = some '#') := by
    simp [List.replicate_succ]
  rw [if_neg h0, strtokAll_spaces]

/-- A line that ends with a bare `<` or `>` does not produce a command either. -/
theorem parseCommand_bare_redirection_fault :
    parseCommand 1234 "ls <".toList = .error Fault.nullDeref ∧
    parseCommand 1234 "ls >".toList = .error Fault.nullDeref := by
  constructor <;> rfl

/-! ## The interpreter loop -/

/-- Claim C9, with the flag `foreground_only` equal to 1: on the empty line and on
a comment line `parseCommand` returns `NULL` and the loop body writes
`isBackground` through that `NULL` pointer. -/
theorem no_command_faults_in_foreground_only (pid : Nat) (os : OS) (st : LoopState) :
    mainLoopBody 1 pid os st [] = { trace := [], control := Control.fault Fault.nullDeref } ∧
    mainLoopBody 1 pid os st "# note".toList
      = { trace := [], control := Control.fault Fault.nullDeref } := by
  constructor
  · unfold mainLoopBody
    rw [parseCommand_no_command pid [] (Or.inl rfl)]
    rfl
  · unfold mainLoopBody
    rw [parseCommand_no_command pid "# note".toList (Or.inr rfl)]
    rfl

/-- With the flag equal to 0 a `NULL` result leaves the state as it is and does
nothing. -/
theorem no_command_no_action (pid : Nat) (os : OS) (st : LoopState) (line : CStr)
    (h : parseCommand pid line = .ok none) :
    mainLoopBody 0 pid os st line = { trace := [], control := Control.next st } := by
  simp [mainLoopBody, h]

/-- Claim C6, after a child that exits with code 2 and after a child killed by
signal 9: the loop stores 2, respectively -1, and `status` then prints
`terminated by signal 2`, respectively `terminated by signal -1`; the reaper
of background children prints `exit value 2` for the same wait status. -/
theorem status_after_exit_2_and_signal_9 :
    mainLoopBody 0 77 ⟨34, WaitStatus.exited 2, 0, 0, none, 0⟩ ⟨1, 0⟩ "ls".toList
      = ⟨[Event.fork, Event.waitpid 34], Control.next ⟨1, 2⟩⟩ ∧
    mainLoopBody 0 77 ⟨35, WaitStatus.exited 0, 0, 0, none, 0⟩ ⟨1, 2⟩ "status".toList
      = ⟨[Event.printf "terminated by signal 2\n".toList], Control.next ⟨1, 2⟩⟩ ∧
    mainLoopBody 0 77 ⟨34, WaitStatus.signaled 9, 0, 0, none, 0⟩ ⟨1, 0⟩ "ls".toList
      = ⟨[Event.fork, Event.waitpid 34], Control.next ⟨1, -1⟩⟩ ∧
    mainLoopBody 0 77 ⟨35, WaitStatus.exited 0, 0, 0, none, 0⟩ ⟨1, -1⟩ "status".toList
      = ⟨[Event.printf "terminated by signal -1\n".toList], Control.next ⟨1, -1⟩⟩ ∧
    sigchildHandlerReport 34 (WaitStatus.exited 2)
      = "\nbackground pid 34 is done: exit value 2\n".toList ∧
    sigchildHandlerReport 34 (WaitStatus.signaled 9)
      = "\nbackground pid 34 is done: terminated by signal 9\n".toList := by
  refine ⟨?_, ?_, ?_, ?_, ?_, ?_⟩ <;> decide

/-- Claim C7, with last status 1 and the line `sleep 5 &`: the background
dispatch stores 0, and the next `status` prints `exit value 0`. -/
theorem background_dispatch_overwrites_status :
    mainLoopBody 0 77 ⟨35, WaitStatus.exited 0, 0, 0, none, 0⟩ ⟨1, 1⟩ "status".toList
      = ⟨[Event.printf "exit value 1\n".toList], Control.next ⟨1, 1⟩⟩ ∧
    mainLoopBody 0 77 ⟨34, WaitStatus.exited 0, 0, 0, none, 0⟩ ⟨1, 1⟩ "sleep 5 &".toList
      = ⟨[Event.sigactionSIGCHLD, Event.fork,
          Event.printf "Background PID is 34\n".toList], Control.next ⟨1, 0⟩⟩ ∧
    mainLoopBody 0 77 ⟨35, WaitStatus.exited 0, 0, 0, none, 0⟩ ⟨1, 0⟩ "status".toList
      = ⟨[Event.printf "exit value 0\n".toList], Control.next ⟨1, 0⟩⟩ := by
  refine ⟨?_, ?_, ?_⟩ <;> decide

theorem executeBackgroundCommand_trace (c : command) (os : OS) :
    Event.sigactionSIGCHLD ∈ (executeBackgroundCommand c os).1 := by
  unfold executeBackgroundCommand
  split_ifs <;> simp

theorem executeCommand_foreground (c : command) (os : OS) (h : c.isBackground = 0) :
    Event.sigactionSIGCHLD ∉ (executeCommand c os).1 ∧
    (os.fork_ret ≠ -1 → os.fork_ret ≠ 0 →
      executeCommand c os =
        ([Event.fork, Event.waitpid os.fork_ret],
          Flow.ret (if WIFEXITED os.wait_status then WEXITSTATUS os.wait_status else -1))) := by
  unfold executeCommand
  rw [if_pos h]
  constructor
  · split_ifs <;> simp
  · intro h1 h2
    rw [if_neg h1, if_neg h2]
    by_cases hw : WIFEXITED os.wait_status = true <;> simp [hw]

theorem executeCommand_background (c : command) (os : OS) (h : c.isBackground ≠ 0) :
    (executeCommand c os).1 = (executeBackgroundCommand c os).1 := by
  unfold executeCommand
  rw [if_neg h]
  rcases hb : executeBackgroundCommand c os with ⟨tr, fl⟩
  cases fl <;> rfl

theorem dispatch_external (st : LoopState) (c : command) (os : OS)
    (h1 : c.command ≠ "exit".toList) (h2 : c.command ≠ "cd".toList)
    (h3 : c.command ≠ "status".toList) :
    dispatch st c os =
      match executeCommand c os with
      | (tr, Flow.ret v) =>
        { trace := tr, control := Control.next { st with exit_status := v } }
      | (tr, Flow.exit code) => { trace := tr, control := Control.exit code }
      | (tr, Flow.child) => { trace := tr, control := Control.child } := by
  unfold dispatch
  rw [if_neg h1, if_neg h2, if_neg h3]

theorem dispatch_external_trace (st : LoopState) (c : command) (os : OS)
    (h1 : c.command ≠ "exit".toList) (h2 : c.command ≠ "cd".toList)
    (h3 : c.command ≠ "status".toList) :
    (dispatch st c os).trace = (executeCommand c os).1 := by
  rw [dispatch_external st c os h1 h2 h3]
  rcases hb : executeCommand c os with ⟨tr, fl⟩
  cases fl <;> rfl

/-- What the built-in `status` prints for any stored last status: `exit value`
only for the values 0 and 1, `terminated by signal` for every other value. -/
theorem status_builtin_report (pid : Nat) (os : OS) (st : LoopState) :
    mainLoopBody 0 pid os st "status".toList =
      { trace :=
          [Event.printf
            (if st.exit_status = 0 ∨ st.exit_status = 1 then
              "exit value ".toList ++ intString st.exit_status ++ "\n".toList
            else "terminated by signal ".toList ++ intString st.exit_status ++ "\n".toList)]
        control := Control.next st } := by
  have hparse : parseCommand pid "status".toList = .ok (some
      { command := "status".toList
        argumentsArray := [Slot.str "status".toList, Slot.null]
        numArguments := 1
        argumentCapacity := 2
        inputFile := none
        outputFile := none
        isBackground := 0 }) := by
    rfl
  unfold mainLoopBody
  rw [hparse]
  simp only [dispatch]
  by_cases h : st.exit_status = 0 ∨ st.exit_status = 1
  · simp [h]
  · simp [h]

/-- The last status stored after a foreground dispatch of a command that is not
a built-in: the exit code of the child, or -1 whatever signal killed it. -/
theorem foreground_dispatch_status (pid : Nat) (os : OS) (st : LoopState) (line : CStr)
    (c : command) (hparse : parseCommand pid line = .ok (some c))
    (h1 : c.command ≠ "exit".toList) (h2 : c.command ≠ "cd".toList)
    (h3 : c.command ≠ "status".toList) (hbg : c.isBackground = 0)
    (hf1 : os.fork_ret ≠ -1) (hf2 : os.fork_ret ≠ 0) :
    mainLoopBody 0 pid os st line =
      { trace := [Event.fork, Event.waitpid os.fork_ret]
        control := Control.next { st with
          exit_status :=
            if WIFEXITED os.wait_status then WEXITSTATUS os.wait_status else -1 } } := by
  have e0 : mainLoopBody 0 pid os st line = dispatch st c os := by
    unfold mainLoopBody
    rw [hparse]
    rfl
  rw [e0, dispatch_external st c os h1 h2 h3, (executeCommand_foreground c os hbg).2 hf1 hf2]

/-- The last status stored after a background dispatch of a command that is not
a built-in, whenever the loop goes on: always 0. -/
theorem background_dispatch_status (pid : Nat) (os : OS) (st st2 : LoopState) (line : CStr)
    (c : command) (hparse : parseCommand pid line = .ok (some c))
    (h1 : c.command ≠ "exit".toList) (h2 : c.command ≠ "cd".toList)
    (h3 : c.command ≠ "status".toList) (hbg : c.isBackground ≠ 0)
    (hnext : (mainLoopBody 0 pid os st line).control = Control.next st2) :
    st2 = { st with exit_status := 0 } := by
  have e0 : mainLoopBody 0 pid os st line = dispatch st c os := by
    unfold mainLoopBody
    rw [hparse]
    rfl
  rw [e0, dispatch_external st c os h1 h2 h3] at hnext
  unfold executeCommand at hnext
  rw [if_neg hbg] at hnext
  rcases hb : executeBackgroundCommand c os with ⟨tr, fl⟩
  rw [hb] at hnext
  cases fl with
  | ret v =>
    simp only [Control.next.injEq] at hnext
    exact hnext.symm
  | exit code => simp at hnext
  | child => simp at hnext

/-- Claim C8: for every parsed command, with `foreground_only` equal to 1 the
loop dispatches the command with `isBackground` set to 0, so a command that is
not a built-in runs on the foreground path of `executeCommand`: the handler
installation that opens `executeBackgroundCommand` never happens and, when
`fork` gives a child, the loop waits for it and stores the translated wait
status as the last status. With the flag equal to 0 the command is dispatched
as parsed: a background command goes through `executeBackgroundCommand`. -/
theorem foreground_only_override (pid : Nat) (os : OS) (st : LoopState) (line : CStr)
    (c : command) (hparse : parseCommand pid line = .ok (some c)) :
    mainLoopBody 1 pid os st line = dispatch st { c with isBackground := 0 } os ∧
    mainLoopBody 0 pid os st line = dispatch st c os ∧
    (c.command ≠ "exit".toList → c.command ≠ "cd".toList → c.command ≠ "status".toList →
      Event.sigactionSIGCHLD ∉ (mainLoopBody 1 pid os st line).trace ∧
      (os.fork_ret ≠ -1 → os.fork_ret ≠ 0 →
        mainLoopBody 1 pid os st line =
          { trace := [Event.fork, Event.waitpid os.fork_ret]
            control := Control.next { st with
              exit_status :=
                if WIFEXITED os.wait_status then WEXITSTATUS os.wait_status else -1 } }) ∧
      (c.isBackground ≠ 0 →
        (mainLoopBody 0 pid os st line).trace = (executeBackgroundCommand c os).1 ∧
        Event.sigactionSIGCHLD ∈ (mainLoopBody 0 pid os st line).trace)) := by
  have e1 : mainLoopBody 1 pid os st line = dispatch st { c with isBackground := 0 } os := by
    unfold mainLoopBody
    rw [hparse]
    rfl
  have e0 : mainLoopBody 0 pid os st line = dispatch st c os := by
    unfold mainLoopBody
    rw [hparse]
    rfl
  refine ⟨e1, e0, ?_⟩
  intro h1 h2 h3
  have hfg := executeCommand_foreground { c with isBackground := 0 } os rfl
  refine ⟨?_, ?_, ?_⟩
  · rw [e1, dispatch_external_trace st { c with isBackground := 0 } os h1 h2 h3]
    exact hfg.1
  · intro hf1 hf2
    rw [e1, dispatch_external st { c with isBackground := 0 } os h1 h2 h3, hfg.2 hf1 hf2]
  · intro hbg
    have ht : (mainLoopBody 0 pid os st line).trace = (executeBackgroundCommand c os).1 := by
      rw [e0, dispatch_external_trace st c os h1 h2 h3, executeCommand_background c os hbg]
    exact ⟨ht, by rw [ht]; exact executeBackgroundCommand_trace c os⟩

/-- Claim C8, witness: `sleep 5 &` with the flag equal to 1 forks, waits for
child 34 and stores its exit code 3; with the flag equal to 0 it reports the
background process id instead. -/
theorem foreground_only_override_witness :
    mainLoopBody 1 77 ⟨34, WaitStatus.exited 3, 0, 0, none, 0⟩ ⟨1, 0⟩ "sleep 5 &".toList
      = ⟨[Event.fork, Event.waitpid 34], Control.next ⟨1, 3⟩⟩ ∧
    (mainLoopBody 0 77 ⟨34, WaitStatus.exited 3, 0, 0, none, 0⟩ ⟨1, 0⟩ "sleep 5 &".toList).trace
      = [Event.sigactionSIGCHLD, Event.fork,
          Event.printf "Background PID is 34\n".toList] :=
  ⟨((foreground_only_override 77 ⟨34, WaitStatus.exited 3, 0, 0, none, 0⟩ ⟨1, 0⟩
      "sleep 5 &".toList _ rfl).2.2 (by decide) (by decide) (by decide)).2.1
      (by decide) (by decide),
   (((foreground_only_override 77 ⟨34, WaitStatus.exited 3, 0, 0, none, 0⟩ ⟨1, 0⟩
      "sleep 5 &".toList _ rfl).2.2 (by decide) (by decide) (by decide)).2.2
      (by decide)).1⟩

theorem addArgument_capacity_le (c : command) (a : CStr)
    (h : c.argumentCapacity ≤ 2 * c.numArguments) :
    (addArgument c a).argumentCapacity ≤ 2 * (addArgument c a).numArguments := by
  by_cases hcap : c.argumentCapacity ≤ c.numArguments + 1
  · rw [addArgument_grow c a hcap]
    show c.argumentCapacity * 2 ≤ 2 * (c.numArguments + 1)
    omega
  · rw [addArgument_fit c a hcap]
    show c.argumentCapacity ≤ 2 * (c.numArguments + 1)
    omega

theorem foldl_addArgument_capacity_le (l : List CStr) :
    ∀ c : command, c.argumentCapacity ≤ 2 * c.numArguments →
      (l.foldl addArgument c).argumentCapacity ≤ 2 * (l.foldl addArgument c).numArguments := by
  induction l with
  | nil => intro c h; simpa using h
  | cons a l ih =>
    intro c h
    simpa using ih (addArgument c a) (addArgument_capacity_le c a h)

/-- Claim C10: starting from the array `parseCommand` creates for the first token
and after any sequence of `addArgument` calls, `numArguments` is below the
capacity, the capacity is a power of two (and at most twice `numArguments`, so
the `int` fields stay far from overflow for any line that fits the input
buffer), the array has exactly `capacity` cells, the first `numArguments`
cells hold the first token and the appended strings in order, and every later
cell is `NULL`. -/
theorem argument_array_invariant (token : CStr) (args : List CStr) :
    (args.foldl addArgument (newCommand token)).numArguments
        < (args.foldl addArgument (newCommand token)).argumentCapacity ∧
    (∃ k, (args.foldl addArgument (newCommand token)).argumentCapacity = 2 ^ k) ∧
    (args.foldl addArgument (newCommand token)).argumentCapacity
        ≤ 2 * (args.foldl addArgument (newCommand token)).numArguments ∧
    (args.foldl addArgument (newCommand token)).numArguments = args.length + 1 ∧
    (args.foldl addArgument (newCommand token)).argumentsArray.length
        = (args.foldl addArgument (newCommand token)).argumentCapacity ∧
    argv (args.foldl addArgument (newCommand token)) = (token :: args).map Slot.str ∧
    (∀ j, (args.foldl addArgument (newCommand token)).numArguments ≤ j →
      j < (args.foldl addArgument (newCommand token)).argumentCapacity →
      (args.foldl addArgument (newCommand token)).argumentsArray[j]? = some Slot.null) := by
  have key : ∀ (l : List CStr) (c : command) (xs : List CStr), ArgInv c xs →
      ArgInv (l.foldl addArgument c) (xs ++ l) := by
    intro l
    induction l with
    | nil => intro c xs h; simpa using h
    | cons a l ih =>
      intro c xs h
      have := ih (addArgument c a) (xs ++ [a]) (addArgument_inv c xs a h)
      simpa using this
  obtain ⟨hn, hlt, hk, harr⟩ := key args (newCommand token) [token] (newCommand_inv token)
  have hn2 : (args.foldl addArgument (newCommand token)).numArguments = args.length + 1 := by
    simpa using hn
  refine ⟨hlt, hk, foldl_addArgument_capacity_le args (newCommand token) (le_refl 2),
    hn2, ?_, ?_, ?_⟩
  · rw [harr]
    simp
    omega
  · unfold argv
    rw [harr, hn2]
    simp
  · intro j h1 h2
    rw [harr, filled_getElem?]
    have h3 : ¬ j < ([token] ++ args).length := by simp; omega
    have h4 : j < ([token] ++ args).length +
        ((args.foldl addArgument (newCommand token)).argumentCapacity -
          (args.foldl addArgument (newCommand token)).numArguments) := by
      simp; omega
    simp only [h3, h4, if_false, if_true]

end SmallSH
